import Mathlib

/-!
# Verification of `jut`, a JWT decoder (Go, `src/main.go`)

Shallow embedding of the core pipeline of `jut`:

* token splitting (`strings.Split(token, ".")` and the segment-count check in
  `main`),
* base64url decoding with padding repair (`decodeSegment`, first half),
* JSON canonicalization (`json.Unmarshal` into `map[string]interface{}`
  followed by `json.Marshal`, second half of `decodeSegment`),
* timestamp extraction (`extractTimestamps`),
* expiry evaluation (the `exp` check in `printPretty`),
* duration humanization (`humanDuration`).

Modelling conventions:

* bytes are `Nat` values (< 256 in practice); byte sequences are `List Nat`;
* Go `float64` JSON numbers are idealized as exact decimals `m * 10^(-k)`
  (an `Int` mantissa and a `Nat` decimal shift), which agrees with Go on all
  values where `float64` is exact and keeps all arithmetic computable;
* `time.Time`/`time.Duration` values are nanosecond counts (`Int`), matching
  Go's `int64` nanosecond representation; "now" is an explicit parameter;
* Go's `encoding/json` unmarshals objects into `map[string]interface{}`
  (duplicate keys: last wins) and `json.Marshal` emits object keys in
  ascending byte order; we model the map as a key-sorted association list
  built by ordered insertion.
-/

namespace Jut

/-! ## JSON values

Dynamic JSON data (`map[string]interface{}`, `[]interface{}`, `float64`,
`string`, `bool`, `nil` in the Go source) as a tagged variant. A number
`jnum m k` denotes the exact decimal `m / 10^k`. An object is an association
list of (byte-string key, value) pairs; parsed objects are kept sorted by key
with unique keys, mirroring the Go map plus `json.Marshal`'s sorted output. -/

inductive Jval where
  | jnull : Jval
  | jbool : Bool → Jval
  | jnum : Int → Nat → Jval
  | jstr : List Nat → Jval
  | jarr : List Jval → Jval
  | jobj : List (List Nat × Jval) → Jval
  deriving Repr

/-! ## IEEE 754 binary64 arithmetic

The Go code converts durations and epoch values through `float64`
(`d.Seconds()`, `d.Minutes()`, `d.Hours()`, `int(d.Hours() / 24)`,
`val.(float64)`, `int64(f)`). Every finite binary64 value is a dyadic
rational `m * 2^e`, and every operation the program performs (convert a
small integer, divide, add, `math.Mod`, truncate, compare) is the rounding
of an exact rational to the nearest binary64 with ties to even, so the model
carries an executable dyadic toolkit built from `Nat`/`Int` arithmetic.
Every nonzero value the program rounds lies in the normal finite range (the
parser rejects literals at or beyond the overflow threshold
`2^1024 - 2^970`, and values below `1` only ever reach a truncation, which
sends the whole subnormal range to `0` exactly as the normal rounding
does), so subnormals, infinities and NaNs never arise and are not
modelled. -/

/-- Fuel-bounded binary logarithm: `log2n f n = log2 n` (the floor) whenever
`n < 2^f`, and `0` for `n < 2`. Structural in the fuel so concrete values
reduce in the kernel; the fuel `20000` used below covers every magnitude
under `2^20000`, far beyond any value this development rounds. -/
def log2n : Nat → Nat → Nat
  | 0, _ => 0
  | f + 1, n => if 2 ≤ n then log2n f (n / 2) + 1 else 0

/-- Nearest integer to `a / D` with ties to even (IEEE 754 default
rounding), for `D ≠ 0`. -/
def rne (a D : Nat) : Nat :=
  let n0 := a / D
  let r2 := 2 * (a % D)
  if D < r2 then n0 + 1
  else if r2 < D then n0
  else if n0 % 2 = 0 then n0 else n0 + 1

/-- A finite binary64 value as an exact dyadic rational `m * 2^e`. The
representation is not kept normalized; operations only depend on the
value. -/
structure F64 where
  m : Int
  e : Int
  deriving Repr, DecidableEq

/-- Round the dyadic `m * 2^e` to at most 53 significant bits (round to
nearest, ties to even): the result of a float64 operation whose exact value
is `m * 2^e`. -/
def round53 (m : Int) (e : Int) : F64 :=
  let L := log2n 20000 m.natAbs
  if L ≤ 52 then ⟨m, e⟩
  else
    let t := L - 52
    let mag := rne m.natAbs (2 ^ t)
    ⟨if m < 0 then -(mag : Int) else (mag : Int), e + (t : Int)⟩

/-- Round the ratio `±(a / b)` (`b ≠ 0`) to binary64: locate the binade by
integer logarithm, scale to a 53-bit mantissa and round it to nearest, ties
to even. This is float64 division of exactly converted integers. -/
def fDivNat (a b : Nat) (neg : Bool) : F64 :=
  if a = 0 then ⟨0, 0⟩
  else
    let k := log2n 20000 b + 2
    let u : Int := ((log2n 20000 (a * 2 ^ k / b) : Int) - (k : Int)) - 52
    let mag := if 0 ≤ u then rne a (b * 2 ^ u.toNat) * 2 ^ u.toNat else rne (a * 2 ^ u.natAbs) b
    ⟨if neg then -(mag : Int) else (mag : Int), if 0 ≤ u then 0 else u⟩

/-- float64 addition of two exactly held operands: the exact dyadic sum,
rounded. -/
def fAdd (x y : F64) : F64 :=
  if x.e ≤ y.e then round53 (x.m + y.m * 2 ^ (y.e - x.e).toNat) x.e
  else round53 (x.m * 2 ^ (x.e - y.e).toNat + y.m) y.e

/-- `float64(n)` for an integer with `|n| < 2^53` (every integer the model
converts is): exact. -/
def fInt (n : Int) : F64 := ⟨n, 0⟩

/-- float64 division by a positive integer constant (`x / 24` and friends:
the constant converts exactly, the division rounds once). -/
def fDivI (x : F64) (n : Nat) : F64 :=
  if 0 ≤ x.e then fDivNat (x.m.natAbs * 2 ^ x.e.toNat) n (decide (x.m < 0))
  else fDivNat x.m.natAbs (n * 2 ^ x.e.natAbs) (decide (x.m < 0))

/-- Truncation toward zero of a dyadic value: Go's `int(x)` / `int64(x)` on
an in-range floating-point value discards the fractional part. -/
def fTrunc (x : F64) : Int :=
  if 0 ≤ x.e then x.m * 2 ^ x.e.toNat else x.m.tdiv (2 ^ x.e.natAbs)

/-- Whether the dyadic value `x` is strictly below the integer `c`. -/
def fLtInt (x : F64) (c : Int) : Bool :=
  if 0 ≤ x.e then decide (x.m * 2 ^ x.e.toNat < c) else decide (x.m < c * 2 ^ x.e.natAbs)

/-- Whether the integer `c` is at most the dyadic value `x`. -/
def fLeInt (c : Int) (x : F64) : Bool :=
  if 0 ≤ x.e then decide (c ≤ x.m * 2 ^ x.e.toNat) else decide (c * 2 ^ x.e.natAbs ≤ x.m)

/-- `math.Mod(x, n)` for a positive integer modulus: the exact remainder
`x - n * trunc(x / n)`, which IEEE 754 guarantees is representable, so no
rounding occurs. -/
def fModInt (x : F64) (n : Nat) : F64 :=
  let q : Int :=
    if 0 ≤ x.e then (x.m * 2 ^ x.e.toNat).tdiv n else x.m.tdiv ((n : Int) * 2 ^ x.e.natAbs)
  if 0 ≤ x.e then ⟨x.m * 2 ^ x.e.toNat - n * q, 0⟩ else ⟨x.m - n * q * 2 ^ x.e.natAbs, x.e⟩

/-! ## Duration humanizer (`humanDuration`, main.go lines 207-231)

Input is a `time.Duration` = `int64` nanosecond count. The Go code takes
`d.Abs()` first, then branches on integer threshold comparisons and converts
through `float64`: `int(d.Seconds())`, `int(d.Minutes())`, `int(d.Hours())`,
`int(math.Mod(d.Minutes(), 60))` and `int(d.Hours() / 24)`. `Seconds`,
`Minutes` and `Hours` each compute `float64(whole) + float64(rem) / unit`
with one rounded division and one rounded addition (the integer operands are
below `2^53` and convert exactly); `math.Mod` is exact on floats; the final
`/ 24` is one more rounded operation. -/

/-- `Duration.Abs`: the absolute value, with the most negative duration
mapping to the most positive one (Go's documented special case). -/
def durAbs (d : Int) : Int := if d = -(2 ^ 63) then 2 ^ 63 - 1 else (d.natAbs : Int)

/-- `Duration.Seconds`: `float64(d / 1e9) + float64(d % 1e9) / 1e9`. -/
def goSeconds (d : Int) : F64 :=
  fAdd (fInt (d.tdiv 1000000000))
    (fDivNat (d.tmod 1000000000).natAbs 1000000000 (decide (d.tmod 1000000000 < 0)))

/-- `Duration.Minutes`: `float64(d / 6e10) + float64(d % 6e10) / 6e10`. -/
def goMinutes (d : Int) : F64 :=
  fAdd (fInt (d.tdiv 60000000000))
    (fDivNat (d.tmod 60000000000).natAbs 60000000000 (decide (d.tmod 60000000000 < 0)))

/-- `Duration.Hours`: `float64(d / 3.6e12) + float64(d % 3.6e12) / 3.6e12`. -/
def goHours (d : Int) : F64 :=
  fAdd (fInt (d.tdiv 3600000000000))
    (fDivNat (d.tmod 3600000000000).natAbs 3600000000000 (decide (d.tmod 3600000000000 < 0)))

/-- `humanDuration` (lines 207-231), including the `float64` detours of the
source: `d.Abs()` first, then the first matching branch by integer threshold
comparison, with the printed quantities obtained by truncating float
conversions and, for days, the rounded float division `d.Hours() / 24`. -/
def humanDuration (d0 : Int) : String :=
  let d := durAbs d0
  if d < 60000000000 then
    toString (fTrunc (goSeconds d)) ++ "s"
  else if d < 3600000000000 then
    toString (fTrunc (goMinutes d)) ++ "m"
  else if d < 86400000000000 then
    let h := fTrunc (goHours d)
    let m := fTrunc (fModInt (goMinutes d) 60)
    if 0 < m then toString h ++ "h " ++ toString m ++ "m"
    else toString h ++ "h"
  else
    let days := fTrunc (fDivI (goHours d) 24)
    if days < 30 then toString days ++ "d"
    else if days < 365 then toString (days.tdiv 30) ++ "mo"
    else toString (days.tdiv 365) ++ "y"

/-- The humanizer as the spec's rule table states it (§4.6 of the spec):
absolute value first, then the first matching row of the table, with seconds,
minutes, hours, days derived by truncating division and the minutes remainder
taken as total-minutes mod 60. Written from the spec's words, to be compared
with `humanDuration` (written from the source). -/
def specHumanDuration (d : Int) : String :=
  let a : Nat := d.natAbs
  let secs := a / 1000000000
  let mins := secs / 60
  let hours := mins / 60
  let days := hours / 24
  if secs < 60 then toString secs ++ "s"
  else if mins < 60 then toString mins ++ "m"
  else if hours < 24 then
    if mins % 60 = 0 then toString hours ++ "h"
    else toString hours ++ "h " ++ toString (mins % 60) ++ "m"
  else if days < 30 then toString days ++ "d"
  else if days < 365 then toString (days / 30) ++ "mo"
  else toString (days / 365) ++ "y"

/-- Nanoseconds per second (`time.Second`). -/
def nsPerSec : Int := 1000000000

/-! ## Token splitter (`strings.Split(token, ".")` and main.go lines 40-43) -/

/-- Go's `strings.Split(s, ".")`: split at every occurrence of `'.'`.
`splitDot "" = [""]`, like Go. -/
def splitDot : List Char → List (List Char)
  | [] => [[]]
  | c :: cs =>
    match splitDot cs with
    | [] => [[c]]
    | p :: ps => if c = '.' then [] :: p :: ps else (c :: p) :: ps

/-- Error raised by `main` when the segment count is wrong, carrying the
observed count (main.go line 42). -/
inductive TokErr where
  | invalidTokenStructure : Nat → TokErr
  deriving Repr, DecidableEq

/-- The structure check in `main` (lines 40-43): split on `.`, fail when the
part count is below 2 or above 3, otherwise proceed with the parts. -/
def checkStructure (token : String) : Except TokErr (List (List Char)) :=
  let parts := splitDot token.data
  if parts.length < 2 || parts.length > 3 then
    .error (.invalidTokenStructure parts.length)
  else
    .ok parts

/-! ## Base64url decoder with padding repair (`decodeSegment`, lines 88-96)

`base64.URLEncoding` is Go's padded URL-safe alphabet decoder; it skips
`\r` and `\n` wherever they occur (documented behaviour of
`encoding/base64`), consumes the remaining characters in 4-character quanta,
allows `=` padding only in the final quantum (one data character short: 2
bytes, two short: 1 byte), rejects characters outside the alphabet, and
rejects remaining input whose length is not a multiple of 4. Go's default
(non-strict) decoder ignores unused trailing bits, as does this model. -/

/-- Value of one base64url alphabet character (`A-Z a-z 0-9 - _`). -/
def b64val (c : Char) : Option Nat :=
  if 'A' ≤ c ∧ c ≤ 'Z' then some (c.toNat - 65)
  else if 'a' ≤ c ∧ c ≤ 'z' then some (c.toNat - 71)
  else if '0' ≤ c ∧ c ≤ '9' then some (c.toNat + 4)
  else if c = '-' then some 62
  else if c = '_' then some 63
  else none

/-- First output byte of a quantum. -/
def b64byte1 (v1 v2 : Nat) : Nat := v1 * 4 + v2 / 16

/-- Second output byte of a quantum. -/
def b64byte2 (v2 v3 : Nat) : Nat := (v2 % 16) * 16 + v3 / 4

/-- Third output byte of a quantum. -/
def b64byte3 (v3 v4 : Nat) : Nat := (v3 % 4) * 64 + v4

/-- Padded base64url decoding of newline-free input, one 4-character
quantum at a time. -/
def b64quanta : List Char → Option (List Nat)
  | [] => some []
  | c1 :: c2 :: c3 :: c4 :: rest =>
    match b64val c1, b64val c2 with
    | some v1, some v2 =>
      if c3 = '=' then
        if c4 = '=' ∧ rest = [] then some [b64byte1 v1 v2] else none
      else
        match b64val c3 with
        | some v3 =>
          if c4 = '=' then
            if rest = [] then some [b64byte1 v1 v2, b64byte2 v2 v3] else none
          else
            match b64val c4 with
            | some v4 =>
              match b64quanta rest with
              | some bs => some (b64byte1 v1 v2 :: b64byte2 v2 v3 :: b64byte3 v3 v4 :: bs)
              | none => none
            | none => none
        | none => none
    | _, _ => none
  | _ => none

/-- Drop the `\r` and `\n` characters Go's decoder skips wherever they
occur. -/
def stripNL (cs : List Char) : List Char := cs.filter (fun c => c != '\n' && c != '\r')

/-- `base64.URLEncoding.DecodeString`: skip newlines, then decode the
quanta. -/
def b64decode (cs : List Char) : Option (List Nat) := b64quanta (stripNL cs)

/-- Padding repair from `decodeSegment` (lines 90-92): if the length is not a
multiple of 4, append `4 - len%4` characters `=`. -/
def padB64 (seg : List Char) : List Char :=
  if seg.length % 4 > 0 then seg ++ List.replicate (4 - seg.length % 4) '=' else seg

/-! ## Timestamp extraction (`extractTimestamps`, lines 171-205) and
expiry evaluation (the `exp` check in `printPretty`, lines 149-162)

Both walk the unmarshaled claims map (`map[string]interface{}`) and use a
claim only when the type assertion `val.(float64)` succeeds. The epoch is
`int64(f)` of the stored float (truncation toward zero; an out-of-range
truncated value yields `math.MinInt64`, the amd64 `CVTTSD2SI` result Go's
implementation-defined conversion produces). Time differences go through
`time.Since` / `time.Time.Sub`, which saturate at the `int64` nanosecond
bounds (`minDuration = -2^63`, `maxDuration = 2^63 - 1`) as documented.
The absolute formatted time (`t.Format(...)`, local time zone) is kept as
the epoch second count; rendering it through the system time zone database
is presentation, not decoding. -/

/-- Go map lookup on the association-list model. -/
def lookupJ (k : List Nat) : List (List Nat × Jval) → Option Jval
  | [] => none
  | (k', v) :: rest => if k' = k then some v else lookupJ k rest

/-- Bytes of the claim name `"iat"`. -/
def iatKey : List Nat := [105, 97, 116]

/-- Bytes of the claim name `"nbf"`. -/
def nbfKey : List Nat := [110, 98, 102]

/-- Bytes of the claim name `"exp"`. -/
def expKey : List Nat := [101, 120, 112]

/-- The fixed claim table of `extractTimestamps` (lines 172-179), in source
order: key bytes paired with the display name. -/
def knownClaims : List (List Nat × String) :=
  [(iatKey, "iat"), (nbfKey, "nbf"), (expKey, "exp")]

/-- `int64(f)` for `f := val.(float64)`: the claim's exact decimal value is
first rounded to `float64` (that is the value `encoding/json` stored), then
truncated toward zero; when the truncated value does not fit in `int64`, the
amd64 conversion yields `math.MinInt64` for either sign. -/
def numTrunc (m : Int) (k : Nat) : Int :=
  let f := fDivNat m.natAbs (10 ^ k) (decide (m < 0))
  if fLtInt f (-(2 ^ 63)) then -(2 ^ 63)
  else if fLeInt (2 ^ 63) f then -(2 ^ 63)
  else fTrunc f

/-- `time.Time.Sub` (and `time.Since`): the exact nanosecond difference
saturated to the `int64` range, as documented for `Duration` overflow. -/
def satSub (a b : Int) : Int :=
  if a - b < -(2 ^ 63) then -(2 ^ 63)
  else if 2 ^ 63 - 1 < a - b then 2 ^ 63 - 1
  else a - b

/-- One extracted timestamp (`tsInfo`, lines 165-169): claim name, epoch
seconds of the absolute time, and the relative description. -/
structure TsInfo where
  name : String
  epoch : Int
  rel : String
  deriving Repr, DecidableEq

/-- The relative description (lines 192-197): humanize `time.Since(t)` =
`now - t` saturated to the `int64` duration range, then prefix `"in "` when
`now` is strictly before `t`, else suffix `" ago"`. Times are in
nanoseconds. -/
def mkRel (now t : Int) : String :=
  let rel := humanDuration (satSub now t)
  if now < t then "in " ++ rel else rel ++ " ago"

/-- One iteration of the `extractTimestamps` loop (lines 182-203): `none`
when the claim is absent or the `float64` type assertion fails, otherwise the
`TsInfo` built from the truncated epoch seconds. -/
def tsOf (claims : List (List Nat × Jval)) (now : Int) (kc : List Nat × String) : Option TsInfo :=
  match lookupJ kc.1 claims with
  | some (.jnum m k) =>
    let sec := numTrunc m k
    some { name := kc.2, epoch := sec, rel := mkRel now (sec * nsPerSec) }
  | _ => none

/-- `extractTimestamps` (lines 171-205): the loop over the known claims in
fixed order, keeping the produced entries. `now` is in nanoseconds. -/
def extractTimestamps (claims : List (List Nat × Jval)) (now : Int) : List TsInfo :=
  knownClaims.filterMap (tsOf claims now)

/-- Whether a claim is present with a numeric (`float64`-asserting) value. -/
def isNumClaim (claims : List (List Nat × Jval)) (k : List Nat) : Bool :=
  match lookupJ k claims with
  | some (.jnum _ _) => true
  | _ => false

/-- JSON whitespace accepted between tokens: space, tab, newline, return. -/
def isWS (b : Nat) : Bool := b = 32 || b = 9 || b = 10 || b = 13

/-- Drop leading JSON whitespace. -/
def skipWS : List Nat → List Nat
  | [] => []
  | b :: bs => if isWS b then skipWS bs else b :: bs

/-- ASCII decimal digit. -/
def isDigit (b : Nat) : Bool := 48 ≤ b && b ≤ 57

/-- Take the longest leading run of digits. -/
def takeDigits : List Nat → List Nat × List Nat
  | [] => ([], [])
  | b :: rest =>
    if isDigit b then
      let p := takeDigits rest
      (b :: p.1, p.2)
    else ([], b :: rest)

/-- Numeric value of a digit run. -/
def digitsVal (ds : List Nat) : Nat := ds.foldl (fun a b => 10 * a + (b - 48)) 0

/-- Decimal digits of `n`, accumulator form. -/
def digitsAux (n : Nat) (acc : List Nat) : List Nat :=
  if h : n = 0 then acc else digitsAux (n / 10) ((48 + n % 10) :: acc)
  termination_by n
  decreasing_by exact Nat.div_lt_self (Nat.pos_of_ne_zero h) (by omega)

/-- Decimal digit bytes of `n` (`"0"` for zero). -/
def natDigits (n : Nat) : List Nat := if n = 0 then [48] else digitsAux n []

/-- Strip common factors of 10 between the mantissa and the decimal shift. -/
def stripZeros : Nat → Nat → Nat × Nat
  | n, 0 => (n, 0)
  | n, k + 1 => if n % 10 = 0 then stripZeros (n / 10) k else (n, k + 1)

/-- Normal form of a parsed numeric literal: magnitude `n`, base-10 exponent
`e0` and sign become a canonical `(mantissa, decimal shift)` pair denoting
`mantissa / 10^shift`, with a non-negative shift, no common factor of 10 when
the shift is positive, and zero represented as `(0, 0)`. -/
def normNum (n : Nat) (e0 : Int) (neg : Bool) : Int × Nat :=
  if n = 0 then (0, 0)
  else
    let p := if 0 ≤ e0 then (n * 10 ^ e0.toNat, 0) else stripZeros n e0.natAbs
    (if neg then -(p.1 : Int) else (p.1 : Int), p.2)

/-- Whether the input starts with a digit. -/
def headDigit : List Nat → Bool
  | [] => false
  | b :: _ => isDigit b

/-- Whether the input starts with byte `x`. -/
def headIs (x : Nat) : List Nat → Bool
  | [] => false
  | b :: _ => b = x

/-- A position where a number literal may stop: end of input or a byte that
can neither extend the digit run nor start a fraction or exponent. -/
def numBoundary : List Nat → Bool
  | [] => true
  | b :: _ => !isDigit b && b ≠ 46 && b ≠ 101 && b ≠ 69

/-- Exponent step of a JSON number literal: optional `e`/`E` part applied to
the digit magnitude `n1` and fraction length `fl` accumulated so far. -/
def parseAfterFrac (n1 : Nat) (fl : Nat) (r3 : List Nat) : Option ((Nat × Int) × List Nat) :=
  match r3 with
  | b :: r4 =>
    if b = 101 ∨ b = 69 then
      match r4 with
      | 43 :: r5 =>
        let p := takeDigits r5
        if p.1 = [] then none else some ((n1, (digitsVal p.1 : Int) - fl), p.2)
      | 45 :: r5 =>
        let p := takeDigits r5
        if p.1 = [] then none else some ((n1, -(digitsVal p.1 : Int) - fl), p.2)
      | _ =>
        let p := takeDigits r4
        if p.1 = [] then none else some ((n1, (digitsVal p.1 : Int) - fl), p.2)
    else some ((n1, -(fl : Int)), r3)
  | [] => some ((n1, -(fl : Int)), [])

/-- Fraction step of a JSON number literal: optional `.` followed by at least
one digit, applied to the integer-part magnitude `n0`. -/
def parseAfterInt (n0 : Nat) (r1 : List Nat) : Option ((Nat × Int) × List Nat) :=
  if headIs 46 r1 then
    let p := takeDigits r1.tail
    if p.1 = [] then none
    else parseAfterFrac (n0 * 10 ^ p.1.length + digitsVal p.1) p.1.length p.2
  else parseAfterFrac n0 0 r1

/-- Parse the unsigned body of a JSON number literal: integer part (a lone
`0` or a nonzero-led digit run), optional fraction, optional exponent.
Returns the combined digit magnitude and the base-10 exponent. -/
def parseNumCore (bs : List Nat) : Option ((Nat × Int) × List Nat) :=
  match bs with
  | [] => none
  | b :: rest =>
    if b = 48 then
      if headDigit rest then none else parseAfterInt 0 rest
    else if isDigit b then
      let p := takeDigits rest
      parseAfterInt (digitsVal (b :: p.1)) p.2
    else none

/-- Least magnitude at which `strconv.ParseFloat` overflows to infinity and
returns `ErrRange`: half an ulp above the largest finite float64, that is
`2^1024 - 2^970` (the rounding is to nearest with ties to even, and the tie
at exactly this midpoint goes to the even mantissa `2^53`, hence to
infinity). -/
def f64ovf : Nat := 2 ^ 1024 - 2 ^ 970

/-- Whether the exact decimal `m / 10^k` is strictly inside the finite
float64 range, so `strconv.ParseFloat` succeeds on its literal. -/
def inRangeF (m : Int) (k : Nat) : Bool := decide (m.natAbs < f64ovf * 10 ^ k)

/-- `convertNumber`'s range policy under `json.Unmarshal`: with the check on
(`chk = true`, the decoding pass) a literal whose magnitude reaches the
float64 overflow threshold fails; the syntax-only pass (`chk = false`,
`checkValid`) never fails here. The normal form preserves the literal's
exact value, so checking it is checking the literal. -/
def numRange (chk : Bool) (mk : Int × Nat) (r : List Nat) :
    Option ((Int × Nat) × List Nat) :=
  if chk && !inRangeF mk.1 mk.2 then none else some (mk, r)

/-- Parse a signed JSON number literal into normal form, applying the
float64 range policy. -/
def parseNum (chk : Bool) (bs : List Nat) : Option ((Int × Nat) × List Nat) :=
  if headIs 45 bs then
    match parseNumCore bs.tail with
    | some (p, r) => numRange chk (normNum p.1 p.2 true) r
    | none => none
  else
    match parseNumCore bs with
    | some (p, r) => numRange chk (normNum p.1 p.2 false) r
    | none => none

/-- Digits of a canonical number magnitude: the mantissa digits with the
decimal point inserted `k` digits from the right (zero-padded on the left as
needed). -/
def printNumCore (n k : Nat) : List Nat :=
  if k = 0 then natDigits n
  else if k < (natDigits n).length then
    (natDigits n).take ((natDigits n).length - k) ++
      46 :: (natDigits n).drop ((natDigits n).length - k)
  else 48 :: 46 :: (List.replicate (k - (natDigits n).length) 48 ++ natDigits n)

/-- Print a canonical number: the magnitude digits with a leading `-` for
negative mantissas. -/
def printNum (m : Int) (k : Nat) : List Nat :=
  if m < 0 then 45 :: printNumCore m.natAbs k else printNumCore m.natAbs k

/-- Lowercase hex digit byte (as `encoding/json` uses in `\u00xx` escapes). -/
def hexDigitByte (n : Nat) : Nat := if n < 10 then 48 + n else 87 + n

/-- Value of a hex digit byte (either case). -/
def hexVal (b : Nat) : Option Nat :=
  if 48 ≤ b ∧ b ≤ 57 then some (b - 48)
  else if 65 ≤ b ∧ b ≤ 70 then some (b - 55)
  else if 97 ≤ b ∧ b ≤ 102 then some (b - 87)
  else none

/-- UTF-8 encoding of a code point (for `\uXXXX` escapes). -/
def utf8encode (n : Nat) : List Nat :=
  if n < 128 then [n]
  else if n < 2048 then [192 + n / 64, 128 + n % 64]
  else if n < 65536 then [224 + n / 4096, 128 + n / 64 % 64, 128 + n % 64]
  else [240 + n / 262144, 128 + n / 4096 % 64, 128 + n / 64 % 64, 128 + n % 64]

/-- Single-character escapes `\" \\ \/ \b \f \n \r \t`. -/
def escCode (e : Nat) : Option Nat :=
  if e = 34 then some 34
  else if e = 92 then some 92
  else if e = 47 then some 47
  else if e = 98 then some 8
  else if e = 102 then some 12
  else if e = 110 then some 10
  else if e = 114 then some 13
  else if e = 116 then some 9
  else none

/-- Parse a JSON string body after the opening quote; returns the decoded
bytes and the input after the closing quote. Control bytes below 0x20 must
be escaped; `\uXXXX` escapes are UTF-8 encoded. -/
def parseStr : List Nat → Option (List Nat × List Nat)
  | [] => none
  | b :: rest =>
    if b = 34 then some ([], rest)
    else if b = 92 then
      match rest with
      | [] => none
      | e :: rest2 =>
        if e = 117 then
          match rest2 with
          | h1 :: h2 :: h3 :: h4 :: rest3 =>
            match hexVal h1, hexVal h2, hexVal h3, hexVal h4 with
            | some x1, some x2, some x3, some x4 =>
              match parseStr rest3 with
              | some (s, r) => some (utf8encode (x1 * 4096 + x2 * 256 + x3 * 16 + x4) ++ s, r)
              | none => none
            | _, _, _, _ => none
          | _ => none
        else
          match escCode e with
          | some c =>
            match parseStr rest2 with
            | some (s, r) => some (c :: s, r)
            | none => none
          | none => none
    else if b < 32 then none
    else
      match parseStr rest with
      | some (s, r) => some (b :: s, r)
      | none => none

/-- `encoding/json` escaping of one string byte: `\" \\ \n \r \t`, `\u00xx`
for other control bytes and for `< > &`, everything else verbatim. -/
def escByte (b : Nat) : List Nat :=
  if b = 34 then [92, 34]
  else if b = 92 then [92, 92]
  else if b = 10 then [92, 110]
  else if b = 13 then [92, 114]
  else if b = 9 then [92, 116]
  else if b < 32 ∨ b = 60 ∨ b = 62 ∨ b = 38 then
    [92, 117, 48, 48, hexDigitByte (b / 16), hexDigitByte (b % 16)]
  else [b]

/-- Escape a whole string body. -/
def escStr (s : List Nat) : List Nat := s.foldr (fun b acc => escByte b ++ acc) []

/-- Strict byte-lexicographic order on keys (what `sort.Strings` gives
`json.Marshal` for map keys). -/
def keyLt : List Nat → List Nat → Bool
  | [], [] => false
  | [], _ :: _ => true
  | _ :: _, [] => false
  | a :: as, b :: bs => if a < b then true else if a = b then keyLt as bs else false

/-- Ordered insertion into a key-sorted association list; an equal key
replaces the stored value (Go map semantics: last write wins). -/
def insertKV (k : List Nat) (v : Jval) : List (List Nat × Jval) → List (List Nat × Jval)
  | [] => [(k, v)]
  | kv :: rest =>
    if keyLt k kv.1 then (k, v) :: kv :: rest
    else if k = kv.1 then (k, v) :: rest
    else kv :: insertKV k v rest

/-- Build the object map from member pairs in source order. -/
def mkObj (ps : List (List Nat × Jval)) : List (List Nat × Jval) :=
  ps.foldl (fun acc kv => insertKV kv.1 kv.2 acc) []

mutual

/-- Parse one JSON value (leading whitespace allowed). `fuel` bounds the
recursion depth; every recursive call consumes one unit. `chk` selects the
float64 range policy for number literals (see `numRange`). -/
def parseVal (chk : Bool) : Nat → List Nat → Option (Jval × List Nat)
  | 0, _ => none
  | fuel + 1, bs =>
    match skipWS bs with
    | [] => none
    | b :: rest =>
      if b = 110 then
        match rest with
        | 117 :: 108 :: 108 :: r => some (.jnull, r)
        | _ => none
      else if b = 116 then
        match rest with
        | 114 :: 117 :: 101 :: r => some (.jbool true, r)
        | _ => none
      else if b = 102 then
        match rest with
        | 97 :: 108 :: 115 :: 101 :: r => some (.jbool false, r)
        | _ => none
      else if b = 34 then
        match parseStr rest with
        | some (s, r) => some (.jstr s, r)
        | none => none
      else if b = 91 then
        match skipWS rest with
        | 93 :: r => some (.jarr [], r)
        | r2 =>
          match parseElems chk fuel r2 with
          | some (vs, r3) => some (.jarr vs, r3)
          | none => none
      else if b = 123 then
        match skipWS rest with
        | 125 :: r => some (.jobj [], r)
        | r2 =>
          match parseMembers chk fuel r2 with
          | some (ps, r3) => some (.jobj (mkObj ps), r3)
          | none => none
      else if b = 45 || isDigit b then
        match parseNum chk (b :: rest) with
        | some (mk, r) => some (.jnum mk.1 mk.2, r)
        | none => none
      else none

/-- Parse a non-empty comma-separated element list up to the closing `]`. -/
def parseElems (chk : Bool) : Nat → List Nat → Option (List Jval × List Nat)
  | 0, _ => none
  | fuel + 1, bs =>
    match parseVal chk fuel bs with
    | none => none
    | some (v, r) =>
      match skipWS r with
      | 44 :: r2 =>
        match parseElems chk fuel r2 with
        | some (vs, r3) => some (v :: vs, r3)
        | none => none
      | 93 :: r2 => some ([v], r2)
      | _ => none

/-- Parse a non-empty comma-separated member list up to the closing `}`,
returning the pairs in source order. -/
def parseMembers (chk : Bool) : Nat → List Nat → Option (List (List Nat × Jval) × List Nat)
  | 0, _ => none
  | fuel + 1, bs =>
    match skipWS bs with
    | 34 :: r =>
      match parseStr r with
      | none => none
      | some (k, r2) =>
        match skipWS r2 with
        | 58 :: r3 =>
          match parseVal chk fuel r3 with
          | none => none
          | some (v, r4) =>
            match skipWS r4 with
            | 44 :: r5 =>
              match parseMembers chk fuel r5 with
              | some (ps, r6) => some ((k, v) :: ps, r6)
              | none => none
            | 125 :: r5 => some ([(k, v)], r5)
            | _ => none
        | _ => none
    | _ => none

end

mutual

/-- Compact serialization, as `json.Marshal` emits it: no whitespace, object
members in stored (sorted) order. -/
def printJval : Jval → List Nat
  | .jnull => [110, 117, 108, 108]
  | .jbool true => [116, 114, 117, 101]
  | .jbool false => [102, 97, 108, 115, 101]
  | .jnum m k => printNum m k
  | .jstr s => 34 :: (escStr s ++ [34])
  | .jarr xs => 91 :: (printElems xs ++ [93])
  | .jobj kvs => 123 :: (printMembers kvs ++ [125])

/-- Serialize array elements, comma separated. -/
def printElems : List Jval → List Nat
  | [] => []
  | [v] => printJval v
  | v :: vs => printJval v ++ 44 :: printElems vs

/-- Serialize object members, comma separated. -/
def printMembers : List (List Nat × Jval) → List Nat
  | [] => []
  | [kv] => 34 :: (escStr kv.1 ++ 34 :: 58 :: printJval kv.2)
  | kv :: rest => (34 :: (escStr kv.1 ++ 34 :: 58 :: printJval kv.2)) ++ 44 :: printMembers rest

end

mutual

/-- Fuel needed by `parseVal` to re-parse a printed value. -/
def sizeJ : Jval → Nat
  | .jnull => 1
  | .jbool _ => 1
  | .jnum _ _ => 1
  | .jstr _ => 1
  | .jarr [] => 1
  | .jarr (v :: vs) => 1 + sizeElems (v :: vs)
  | .jobj [] => 1
  | .jobj (kv :: kvs) => 1 + sizeMembers (kv :: kvs)

/-- Fuel needed by `parseElems` on a printed element list. -/
def sizeElems : List Jval → Nat
  | [] => 1
  | [v] => 1 + sizeJ v
  | v :: vs => 1 + sizeJ v + sizeElems vs

/-- Fuel needed by `parseMembers` on a printed member list. -/
def sizeMembers : List (List Nat × Jval) → Nat
  | [] => 1
  | [kv] => 1 + sizeJ kv.2
  | kv :: rest => 1 + sizeJ kv.2 + sizeMembers rest

end

/-- Keys strictly ascending. -/
def sortedKeys : List (List Nat × Jval) → Bool
  | [] => true
  | [_] => true
  | kv1 :: kv2 :: rest => keyLt kv1.1 kv2.1 && sortedKeys (kv2 :: rest)

mutual

/-- Canonical-form invariant maintained by the decoding parser: numbers in
normal form and strictly inside the finite float64 range, and every object
key-sorted (strictly ascending, hence unique) at every nesting level. -/
def canonJ : Jval → Bool
  | .jnull => true
  | .jbool _ => true
  | .jnum m k =>
    (decide (k = 0) || decide (m.natAbs % 10 ≠ 0)) &&
      (decide (m ≠ 0) || decide (k = 0)) && inRangeF m k
  | .jstr _ => true
  | .jarr xs => canonElems xs
  | .jobj kvs => canonMembers kvs && sortedKeys kvs

/-- All elements canonical. -/
def canonElems : List Jval → Bool
  | [] => true
  | v :: vs => canonJ v && canonElems vs

/-- All member values canonical. -/
def canonMembers : List (List Nat × Jval) → Bool
  | [] => true
  | kv :: rest => canonJ kv.2 && canonMembers rest

end

/-- `json.Unmarshal`'s whole-input discipline: one JSON value, then only
whitespace. The fuel `bs.length + 1` dominates the recursion depth of any
parse of `bs`. -/
def parseWhole (chk : Bool) (bs : List Nat) : Option Jval :=
  match parseVal chk (bs.length + 1) bs with
  | some (v, r) => if skipWS r = [] then some v else none
  | none => none

/-- The decoding pass of `json.Unmarshal`: the grammar plus the float64
range check every number literal goes through in `convertNumber`. -/
def parseTop (bs : List Nat) : Option Jval := parseWhole true bs

/-- The validating pass of `json.Unmarshal` (`checkValid`): the same
grammar, syntax only. `Unmarshal` validates the whole input before decoding
it, so a top-level shape mismatch is detected (and the mismatching value
skipped without number conversion) on any syntactically valid input, even
one containing an overflowing literal. -/
def parseTopSyn (bs : List Nat) : Option Jval := parseWhole false bs

/-- Stage-tagged errors of `decodeSegment` (§7 of the spec): base64 failure,
JSON syntax or number-range failure, or a top level that is not an object. -/
inductive SegErr where
  | base64DecodeError : SegErr
  | malformedJSON : SegErr
  | invalidClaimsShape : SegErr
  deriving Repr, DecidableEq

/-- The canonicalizer half of `decodeSegment` (lines 98-103), following
`json.Unmarshal`'s two phases: syntax-validate the bytes (failure:
`malformedJSON`), dispatch on the top-level shape (non-object:
`invalidClaimsShape`), then decode with the float64 range check (an
overflowing literal fails the whole `Unmarshal`, again surfacing as the
JSON-stage error) and re-marshal compactly with sorted keys. -/
def canonicalizeJSON (bs : List Nat) : Except SegErr (List Nat) :=
  match parseTopSyn bs with
  | none => .error .malformedJSON
  | some (.jobj _) =>
    match parseTop bs with
    | some (.jobj kvs) => .ok (printJval (.jobj kvs))
    | _ => .error .malformedJSON
  | some _ => .error .invalidClaimsShape

/-- `decodeSegment` (lines 88-104): padding repair, base64url decoding, then
JSON canonicalization, each stage tagging its own failure. -/
def decodeSegment (seg : String) : Except SegErr (List Nat) :=
  match b64decode (padB64 seg.data) with
  | none => .error .base64DecodeError
  | some bytes => canonicalizeJSON bytes

/-! # Theorems -/

/-! ## Duration humanizer -/

/-- `Duration.Abs` is idempotent: its value is nonnegative and below the
most negative duration's magnitude. -/
theorem durAbs_idem (d : Int) : durAbs (durAbs d) = durAbs d := by
  unfold durAbs
  by_cases h : d = -(2 ^ 63)
  · rw [if_pos h, if_neg (by omega)]
    omega
  · rw [if_neg h, if_neg (by omega)]
    omega

/-- C4 (counterexample): at 180 days minus one nanosecond the program's
float64 day computation `int(d.Hours() / 24)` rounds `d.Hours()` up to
exactly 4320 (the true value is within half an ulp below it), giving
`days = 180` and the output `"6mo"`, while the spec's truncating-division
table gives 179 days and `"5mo"`; the humanizer therefore does not compute
days as `floor(hours / 24)`. -/
theorem c4_counterexample :
    humanDuration (180 * 86400 * nsPerSec - 1) = "6mo" ∧
    specHumanDuration (180 * 86400 * nsPerSec - 1) = "5mo" := by
  constructor
  · decide
  · decide

/-- C4 (amended): the duration humanizer takes `Duration.Abs` first and then
applies the first matching rule by integer nanosecond thresholds, printing
quantities obtained through truncating float64 conversions; seconds, minutes,
hours and the minutes remainder agree with the truncating-division table on
the spec's boundary rows, but days are `int(d.Hours() / 24)` computed in
float64, which within half an ulp below a whole multiple of 24 hours rounds
up: 180 days - 1 ns prints `"6mo"` and 365 days - 1 ns prints `"1y"` where
exact truncating division would give `"5mo"` and `"12mo"`. -/
theorem c4_amended :
    (∀ d : Int, humanDuration d = humanDuration (durAbs d)) ∧
    humanDuration (45 * nsPerSec) = "45s" ∧
    humanDuration (90 * nsPerSec) = "1m" ∧
    humanDuration (3661 * nsPerSec) = "1h 1m" ∧
    humanDuration (7200 * nsPerSec) = "2h" ∧
    humanDuration (90000 * nsPerSec) = "1d" ∧
    humanDuration (40 * 86400 * nsPerSec) = "1mo" ∧
    humanDuration (400 * 86400 * nsPerSec) = "1y" ∧
    humanDuration (180 * 86400 * nsPerSec - 1) = "6mo" ∧
    humanDuration (365 * 86400 * nsPerSec - 1) = "1y" ∧
    specHumanDuration (180 * 86400 * nsPerSec - 1) = "5mo" ∧
    specHumanDuration (365 * 86400 * nsPerSec - 1) = "12mo" :=
  ⟨fun d => by simp only [humanDuration, durAbs_idem],
    by decide, by decide, by decide, by decide, by decide, by decide, by decide,
    by decide, by decide, by decide, by decide⟩

/-! ## Token splitter -/

/-- `strings.Split` never returns an empty slice. -/
theorem splitDot_ne_nil (cs : List Char) : splitDot cs ≠ [] := by
  cases cs with
  | nil => simp [splitDot]
  | cons c cs =>
    simp only [splitDot]
    split
    · simp
    · split <;> simp

/-- C1: splitting on `.` always yields at least one segment; the count
being different from 2 and 3 is the same as it being 1 or at least 4; in
that case the program fails with `InvalidTokenStructure` carrying the
observed count, and with 2 or 3 segments it proceeds with the parts. -/
theorem c1_token_structure (t : String) :
    1 ≤ (splitDot t.data).length ∧
    (((splitDot t.data).length ≠ 2 ∧ (splitDot t.data).length ≠ 3) ↔
      ((splitDot t.data).length = 1 ∨ 4 ≤ (splitDot t.data).length)) ∧
    (((splitDot t.data).length = 1 ∨ 4 ≤ (splitDot t.data).length) →
      checkStructure t = .error (.invalidTokenStructure (splitDot t.data).length)) ∧
    (((splitDot t.data).length = 2 ∨ (splitDot t.data).length = 3) →
      checkStructure t = .ok (splitDot t.data)) := by
  have hne : splitDot t.data ≠ [] := splitDot_ne_nil _
  have hlen : 1 ≤ (splitDot t.data).length := by
    cases h : splitDot t.data with
    | nil => exact absurd h hne
    | cons a l => simp
  refine ⟨hlen, by omega, fun h => ?_, fun h => ?_⟩
  · simp only [checkStructure]
    rw [if_pos]
    simp only [Bool.or_eq_true, decide_eq_true_eq]
    omega
  · simp only [checkStructure]
    rw [if_neg]
    simp only [Bool.or_eq_true, decide_eq_true_eq, not_or, not_lt]
    omega

/-- C1 (witness): a two-segment token proceeds. -/
theorem c1_token_structure_witness :
    checkStructure "a.b" = .ok (splitDot "a.b".data) :=
  (c1_token_structure "a.b").2.2.2 (Or.inl (by decide))

/-! ## Timestamp extraction and expiry -/

/-- The name list produced by one slot, as a function of presence. -/
theorem tsOf_map_name (claims : List (List Nat × Jval)) (now : Int) (kc : List Nat × String) :
    ((tsOf claims now kc).toList.map TsInfo.name) =
      if isNumClaim claims kc.1 then [kc.2] else [] := by
  unfold tsOf isNumClaim
  cases hl : lookupJ kc.1 claims with
  | none => simp
  | some v => cases v <;> simp

/-- The extracted list is the three slots in fixed order. -/
theorem extract_eq_append (claims : List (List Nat × Jval)) (now : Int) :
    extractTimestamps claims now =
      (tsOf claims now (iatKey, "iat")).toList ++
      ((tsOf claims now (nbfKey, "nbf")).toList ++
        (tsOf claims now (expKey, "exp")).toList) := by
  cases h1 : tsOf claims now (iatKey, "iat") <;>
    cases h2 : tsOf claims now (nbfKey, "nbf") <;>
      cases h3 : tsOf claims now (expKey, "exp") <;>
        simp [extractTimestamps, knownClaims, List.filterMap_cons, h1, h2, h3]

/-- C7: the extractor emits entries in the fixed order `iat, nbf, exp` —
the emitted names are exactly the fixed claim list filtered by
present-and-numeric, independently of where the claims appear — and absent
or non-numeric (e.g. string-typed) claims are silently skipped; moreover the
output depends only on the lookups of the three recognized names, not on the
order of appearance of the claims. -/
theorem c7_fixed_order (claims : List (List Nat × Jval)) (now : Int) :
    ((extractTimestamps claims now).map TsInfo.name =
      (knownClaims.filter (fun kc => isNumClaim claims kc.1)).map Prod.snd) ∧
    (∀ claims2, (∀ kc ∈ knownClaims, lookupJ kc.1 claims2 = lookupJ kc.1 claims) →
      extractTimestamps claims2 now = extractTimestamps claims now) := by
  constructor
  · rw [extract_eq_append]
    simp only [List.map_append, tsOf_map_name, knownClaims, List.filter]
    by_cases h1 : isNumClaim claims iatKey <;>
      by_cases h2 : isNumClaim claims nbfKey <;>
        by_cases h3 : isNumClaim claims expKey <;>
          simp [h1, h2, h3]
  · intro claims2 h
    unfold extractTimestamps
    apply List.filterMap_congr
    intro kc hkc
    unfold tsOf
    rw [h kc hkc]

/-- C7 (witness): payload with `exp` before `iat`, a string-typed `nbf`,
and an unrecognized claim still yields names `iat, exp` in fixed order. -/
theorem c7_fixed_order_witness :
    (extractTimestamps
        [(expKey, Jval.jnum 5 0), ([115, 117, 98], Jval.jstr [120]),
          (nbfKey, Jval.jstr [49, 50, 51]), (iatKey, Jval.jnum 1 0)] 0).map TsInfo.name =
      (knownClaims.filter (fun kc =>
        isNumClaim
          [(expKey, Jval.jnum 5 0), ([115, 117, 98], Jval.jstr [120]),
            (nbfKey, Jval.jstr [49, 50, 51]), (iatKey, Jval.jnum 1 0)] kc.1)).map Prod.snd :=
  (c7_fixed_order _ 0).1

theorem b64quanta_short1 (c1 : Char) : b64quanta [c1] = none := rfl
theorem b64quanta_short2 (c1 c2 : Char) : b64quanta [c1, c2] = none := rfl
theorem b64quanta_short3 (c1 c2 c3 : Char) : b64quanta [c1, c2, c3] = none := rfl

theorem b64quanta_mod4 : ∀ (n : Nat) (cs : List Char), cs.length ≤ n →
    ∀ bs, b64quanta cs = some bs → cs.length % 4 = 0 := by
  intro n
  induction n with
  | zero =>
    intro cs hl bs h
    have : cs = [] := by cases cs <;> simp_all
    subst this
    rfl
  | succ n ih =>
    intro cs hl bs h
    rcases cs with _ | ⟨c1, _ | ⟨c2, _ | ⟨c3, _ | ⟨c4, rest⟩⟩⟩⟩
    · rfl
    · rw [b64quanta_short1] at h; cases h
    · rw [b64quanta_short2] at h; cases h
    · rw [b64quanta_short3] at h; cases h
    · simp only [b64quanta] at h
      repeat' split at h
      all_goals first
        | (cases h; done)
        | (simp_all; done)
        | (simp_all; omega)
        | (obtain ⟨bs2, hb⟩ : ∃ y, b64quanta rest = some y := ⟨_, by assumption⟩
           have hr := ih rest (by simp at hl; omega) bs2 hb
           simp only [List.length_cons]
           omega)

theorem b64quanta_badchar : ∀ (n : Nat) (cs : List Char), cs.length ≤ n →
    ∀ c, c ∈ cs → b64val c = none → c ≠ '=' → b64quanta cs = none := by
  intro n
  induction n with
  | zero =>
    intro cs hl c hc hv hne
    have : cs = [] := by cases cs <;> simp_all
    subst this
    cases hc
  | succ n ih =>
    intro cs hl c hc hv hne
    rcases cs with _ | ⟨c1, _ | ⟨c2, _ | ⟨c3, _ | ⟨c4, rest⟩⟩⟩⟩
    · cases hc
    · exact b64quanta_short1 c1
    · exact b64quanta_short2 c1 c2
    · exact b64quanta_short3 c1 c2 c3
    · simp only [List.mem_cons] at hc
      rcases hc with rfl | rfl | rfl | rfl | hc
      · simp only [b64quanta]; repeat' split <;> simp_all
      · simp only [b64quanta]; repeat' split <;> simp_all
      · simp only [b64quanta]; repeat' split <;> simp_all
      · simp only [b64quanta]; repeat' split <;> simp_all
      · have hrn := ih rest (by simp at hl; omega) c hc hv hne
        have hne2 : rest ≠ [] := List.ne_nil_of_mem hc
        simp only [b64quanta]; repeat' split <;> simp_all

theorem replicate_eq_cons4 (k : Nat) (hk : 4 ≤ k) :
    List.replicate k '=' = '=' :: '=' :: '=' :: '=' :: List.replicate (k - 4) '=' := by
  nth_rewrite 1 [show k = 4 + (k - 4) by omega]
  rw [List.replicate_add]
  rfl

theorem replicate_eq_cons3 (k : Nat) (hk : 3 ≤ k) :
    List.replicate k '=' = '=' :: '=' :: '=' :: List.replicate (k - 3) '=' := by
  nth_rewrite 1 [show k = 3 + (k - 3) by omega]
  rw [List.replicate_add]
  rfl

theorem replicate_eq_cons2 (k : Nat) (hk : 2 ≤ k) :
    List.replicate k '=' = '=' :: '=' :: List.replicate (k - 2) '=' := by
  nth_rewrite 1 [show k = 2 + (k - 2) by omega]
  rw [List.replicate_add]
  rfl

theorem replicate_eq_cons1 (k : Nat) (hk : 1 ≤ k) :
    List.replicate k '=' = '=' :: List.replicate (k - 1) '=' := by
  nth_rewrite 1 [show k = 1 + (k - 1) by omega]
  rw [List.replicate_add]
  rfl

theorem replicate_pad_ne_nil (j : Nat) (hj : 1 ≤ j) : List.replicate j '=' ≠ [] := by
  intro hx
  have := congrArg List.length hx
  simp at this
  omega

theorem b64val_pad : b64val '=' = none := by decide

theorem b64_pad_unique : ∀ (n : Nat) (S : List Char), S.length ≤ n → '=' ∉ S →
    ∀ k bs', b64quanta (S ++ List.replicate k '=') = some bs' →
      k = (4 - S.length % 4) % 4 := by
  intro n
  induction n with
  | zero =>
    intro S hl hS k bs' h
    have hS0 : S = [] := by cases S <;> simp_all
    subst hS0
    simp only [List.nil_append] at h
    have hm := b64quanta_mod4 k _ (by simp) bs' h
    simp only [List.length_replicate] at hm
    by_cases hk : k = 0
    · simpa using hk
    · exfalso
      rw [replicate_eq_cons4 k (by omega)] at h
      simp [b64quanta, b64val_pad] at h
  | succ n ih =>
    intro S hl hS k bs' h
    rcases S with _ | ⟨c1, _ | ⟨c2, _ | ⟨c3, _ | ⟨c4, S2⟩⟩⟩⟩
    · simp only [List.nil_append] at h
      have hm := b64quanta_mod4 k _ (by simp) bs' h
      simp only [List.length_replicate] at hm
      by_cases hk : k = 0
      · simpa using hk
      · exfalso
        rw [replicate_eq_cons4 k (by omega)] at h
        simp [b64quanta, b64val_pad] at h
    · exfalso
      have hm := b64quanta_mod4 (1 + k) _
        (by simp only [List.length_append, List.length_cons, List.length_nil,
              List.length_replicate]; omega) bs' h
      simp only [List.length_append, List.length_cons, List.length_nil,
        List.length_replicate] at hm
      rw [replicate_eq_cons3 k (by omega)] at h
      simp only [List.cons_append, List.nil_append] at h
      cases hv1 : b64val c1 <;> simp [b64quanta, hv1, b64val_pad] at h
    · have hm := b64quanta_mod4 (2 + k) _
        (by simp only [List.length_append, List.length_cons, List.length_nil,
              List.length_replicate]; omega) bs' h
      simp only [List.length_append, List.length_cons, List.length_nil,
        List.length_replicate] at hm
      by_cases hk : k = 2
      · simpa using hk
      · exfalso
        have hk6 : 6 ≤ k := by omega
        rw [replicate_eq_cons2 k (by omega)] at h
        simp only [List.cons_append, List.nil_append] at h
        have hrep := replicate_pad_ne_nil (k - 2) (by omega)
        simp only [b64quanta] at h
        repeat' split at h
        all_goals simp_all
    · have hm := b64quanta_mod4 (3 + k) _
        (by simp only [List.length_append, List.length_cons, List.length_nil,
              List.length_replicate]; omega) bs' h
      simp only [List.length_append, List.length_cons, List.length_nil,
        List.length_replicate] at hm
      by_cases hk : k = 1
      · simpa using hk
      · exfalso
        have hk5 : 5 ≤ k := by omega
        rw [replicate_eq_cons1 k (by omega)] at h
        simp only [List.cons_append, List.nil_append] at h
        have hrep := replicate_pad_ne_nil (k - 1) (by omega)
        simp only [b64quanta] at h
        repeat' split at h
        all_goals simp_all
    · simp only [List.mem_cons, not_or] at hS
      obtain ⟨h1, h2, h3, h4, hS2⟩ := hS
      simp only [List.cons_append, b64quanta] at h
      repeat' split at h
      all_goals try (exfalso; simp_all; done)
      obtain ⟨bs2, hb⟩ : ∃ y, b64quanta (S2 ++ List.replicate k '=') = some y :=
        ⟨_, by assumption⟩
      have := ih S2 (by simp at hl; omega) hS2 k bs2 hb
      simp only [List.length_cons]
      omega

theorem padB64_eq (S : List Char) :
    padB64 S = S ++ List.replicate ((4 - S.length % 4) % 4) '=' := by
  unfold padB64
  by_cases h : S.length % 4 > 0
  · rw [if_pos h, show (4 - S.length % 4) % 4 = 4 - S.length % 4 by omega]
  · rw [if_neg h, show (4 - S.length % 4) % 4 = 0 by omega]
    simp

/-- Newline stripping is the identity on newline-free input. -/
theorem stripNL_id : ∀ cs : List Char, '\n' ∉ cs → '\r' ∉ cs → stripNL cs = cs := by
  intro cs h1 h2
  induction cs with
  | nil => rfl
  | cons c cs ih =>
    simp only [List.mem_cons, not_or] at h1 h2
    have hc : (c != '\n' && c != '\r') = true := by
      simp only [Bool.and_eq_true, bne_iff_ne, ne_eq]
      exact ⟨fun e => h1.1 e.symm, fun e => h2.1 e.symm⟩
    simp only [stripNL, List.filter_cons, hc, if_true]
    show c :: stripNL cs = c :: cs
    rw [ih h1.2 h2.2]

/-- C5 (counterexample): Go's base64 decoder ignores `\r` and `\n`: the
padded segment `"QQ==\n"` has length 5 — not a multiple of 4 — and contains
the non-alphabet character `\n`, yet it decodes to the byte 65; decoding
therefore fails neither on every character outside the alphabet nor on every
length that is not a multiple of 4. -/
theorem c5_counterexample :
    b64decode ['Q', 'Q', '=', '=', '\n'] = some [65] ∧
    (['Q', 'Q', '=', '=', '\n'] : List Char).length % 4 = 1 ∧
    b64val '\n' = none := by
  refine ⟨by decide, by decide, by decide⟩

/-- C5 (amended): the decoder first discards `\r` and `\n` (which are
therefore tolerated, not invalid); for a newline-free base64url segment `S`
without padding that decodes after the computed padding repair, the computed
pad count (4 - len mod 4) mod 4 is the unique number of appended `=`
characters that makes decoding succeed, and it yields the same bytes;
decoding fails when the newline-stripped input has a length that is not a
multiple of 4 or contains a character outside the alphabet other than
`=`. -/
theorem c5_amended (S : List Char) (bs : List Nat)
    (hS : '=' ∉ S) (hn : '\n' ∉ S) (hr : '\r' ∉ S)
    (hdec : b64decode (padB64 S) = some bs) :
    (padB64 S = S ++ List.replicate ((4 - S.length % 4) % 4) '=' ∧
     ∀ k bs', b64decode (S ++ List.replicate k '=') = some bs' →
       k = (4 - S.length % 4) % 4 ∧ bs' = bs) ∧
    (∀ T : List Char, b64decode T = b64quanta (stripNL T)) ∧
    (∀ T : List Char, (stripNL T).length % 4 ≠ 0 → b64decode T = none) ∧
    (∀ (T : List Char) (c : Char), c ∈ T → b64val c = none → c ≠ '=' →
      c ≠ '\n' → c ≠ '\r' → b64decode T = none) := by
  have hrep : ∀ (j : Nat), stripNL (S ++ List.replicate j '=') = S ++ List.replicate j '=' := by
    intro j
    refine stripNL_id _ (fun hm => ?_) (fun hm => ?_)
    · rcases List.mem_append.mp hm with h2 | h2
      · exact hn h2
      · exact absurd (List.eq_of_mem_replicate h2) (by decide)
    · rcases List.mem_append.mp hm with h2 | h2
      · exact hr h2
      · exact absurd (List.eq_of_mem_replicate h2) (by decide)
  refine ⟨⟨padB64_eq S, fun k bs' h => ?_⟩, fun T => rfl, fun T hT => ?_,
    fun T c hc hv hne hnn hnr => ?_⟩
  · have h' : b64quanta (S ++ List.replicate k '=') = some bs' := by
      rw [← hrep k]; exact h
    have hk := b64_pad_unique S.length S le_rfl hS k bs' h'
    refine ⟨hk, ?_⟩
    have hdec' : b64quanta (S ++ List.replicate ((4 - S.length % 4) % 4) '=') = some bs := by
      rw [← hrep _, ← padB64_eq S]; exact hdec
    rw [hk, hdec'] at h'
    exact (Option.some.injEq _ _ ▸ h').symm
  · show b64quanta (stripNL T) = none
    cases hdT : b64quanta (stripNL T) with
    | none => rfl
    | some y => exact absurd (b64quanta_mod4 (stripNL T).length _ le_rfl y hdT) hT
  · show b64quanta (stripNL T) = none
    have hcs : c ∈ stripNL T := by
      refine List.mem_filter.mpr ⟨hc, ?_⟩
      simp only [Bool.and_eq_true, bne_iff_ne, ne_eq]
      exact ⟨hnn, hnr⟩
    exact b64quanta_badchar (stripNL T).length _ le_rfl c hcs hv hne

/-- C5 (witness for the amended claim): `QQ` pads to `QQ==` and decodes to
byte 65. -/
theorem c5_amended_witness :
    2 = (4 - (['Q', 'Q'] : List Char).length % 4) % 4 ∧ ([65] : List Nat) = [65] :=
  (c5_amended ['Q', 'Q'] [65] (by decide) (by decide) (by decide) (by decide)).1.2
    2 [65] (by decide)

/-- C9: an empty segment receives no padding, passes base64url decoding with
empty bytes, and `decodeSegment` then fails at the downstream JSON parsing
stage on those empty bytes. -/
theorem c9_empty_segment :
    padB64 ([] : List Char) = [] ∧
    b64decode ([] : List Char) = some [] ∧
    decodeSegment "" = .error .malformedJSON :=
  ⟨rfl, rfl, rfl⟩

/-! ## Top-level shape dispatch of the canonicalizer -/

theorem digitsAux_acc : ∀ n acc, digitsAux n acc = digitsAux n [] ++ acc := by
  intro n
  induction n using Nat.strong_induction_on with
  | _ n ih =>
    intro acc
    by_cases h : n = 0
    · subst h; simp [digitsAux]
    · have hlt := Nat.div_lt_self (Nat.pos_of_ne_zero h) (show 1 < 10 by omega)
      conv_lhs => rw [digitsAux]
      conv_rhs => rw [digitsAux]
      rw [dif_neg h, dif_neg h, ih (n / 10) hlt ((48 + n % 10) :: acc),
        ih (n / 10) hlt [48 + n % 10]]
      simp

theorem digitsAux_all_digits : ∀ n, ∀ b ∈ digitsAux n [], isDigit b = true := by
  intro n
  induction n using Nat.strong_induction_on with
  | _ n ih =>
    intro b hb
    by_cases h : n = 0
    · subst h; simp [digitsAux] at hb
    · rw [digitsAux, dif_neg h, digitsAux_acc] at hb
      rcases List.mem_append.mp hb with h1 | h1
      · exact ih (n / 10) (Nat.div_lt_self (Nat.pos_of_ne_zero h) (by omega)) b h1
      · simp at h1
        subst h1
        simp [isDigit]
        omega

theorem digitsVal_acc : ∀ (ys : List Nat) (a : Nat),
    ys.foldl (fun x b => 10 * x + (b - 48)) a = a * 10 ^ ys.length + digitsVal ys := by
  intro ys
  induction ys with
  | nil => intro a; simp [digitsVal]
  | cons b ys ih =>
    intro a
    simp only [List.foldl_cons, List.length_cons, digitsVal]
    rw [ih (10 * a + (b - 48)), ih (10 * 0 + (b - 48))]
    ring

theorem digitsVal_append (xs ys : List Nat) :
    digitsVal (xs ++ ys) = digitsVal xs * 10 ^ ys.length + digitsVal ys := by
  unfold digitsVal
  rw [List.foldl_append, digitsVal_acc]
  rfl

theorem digitsVal_digitsAux : ∀ n, digitsVal (digitsAux n []) = n := by
  intro n
  induction n using Nat.strong_induction_on with
  | _ n ih =>
    by_cases h : n = 0
    · subst h; simp [digitsAux, digitsVal]
    · rw [digitsAux, dif_neg h, digitsAux_acc, digitsVal_append,
        ih (n / 10) (Nat.div_lt_self (Nat.pos_of_ne_zero h) (by omega))]
      simp [digitsVal]
      omega

theorem digitsAux_ne_nil (n : Nat) (h : n ≠ 0) : digitsAux n [] ≠ [] := by
  rw [digitsAux, dif_neg h, digitsAux_acc]
  simp

theorem digitsAux_head : ∀ n, n ≠ 0 → ∀ b t, digitsAux n [] = b :: t →
    isDigit b = true ∧ b ≠ 48 := by
  intro n
  induction n using Nat.strong_induction_on with
  | _ n ih =>
    intro h b t hbt
    rw [digitsAux, dif_neg h, digitsAux_acc] at hbt
    by_cases h10 : n / 10 = 0
    · rw [h10] at hbt
      simp [digitsAux] at hbt
      obtain ⟨rfl, -⟩ := hbt
      have hm : n % 10 ≠ 0 := by omega
      constructor
      · simp [isDigit]; omega
      · omega
    · cases hd : digitsAux (n / 10) [] with
      | nil => exact absurd hd (digitsAux_ne_nil _ h10)
      | cons b0 t0 =>
        rw [hd] at hbt
        simp at hbt
        obtain ⟨rfl, -⟩ := hbt
        exact ih (n / 10) (Nat.div_lt_self (Nat.pos_of_ne_zero h) (by omega)) h10 b0 t0 hd

theorem natDigits_val (n : Nat) : digitsVal (natDigits n) = n := by
  unfold natDigits
  by_cases h : n = 0
  · simp [h, digitsVal]
  · rw [if_neg h]; exact digitsVal_digitsAux n

theorem natDigits_all_digits (n : Nat) : ∀ b ∈ natDigits n, isDigit b = true := by
  unfold natDigits
  by_cases h : n = 0
  · simp [h, isDigit]
  · rw [if_neg h]; exact digitsAux_all_digits n

theorem natDigits_ne_nil (n : Nat) : natDigits n ≠ [] := by
  unfold natDigits
  by_cases h : n = 0
  · simp [h]
  · rw [if_neg h]; exact digitsAux_ne_nil n h

theorem natDigits_head (n : Nat) (h : n ≠ 0) : ∀ b t, natDigits n = b :: t →
    isDigit b = true ∧ b ≠ 48 := by
  unfold natDigits
  rw [if_neg h]
  exact digitsAux_head n h

theorem takeDigits_append : ∀ (ds rest : List Nat), (∀ b ∈ ds, isDigit b = true) →
    headDigit rest = false → takeDigits (ds ++ rest) = (ds, rest) := by
  intro ds
  induction ds with
  | nil =>
    intro rest hds hrest
    cases rest with
    | nil => rfl
    | cons b r =>
      simp [headDigit] at hrest
      simp [takeDigits, hrest]
  | cons d ds ih =>
    intro rest hds hrest
    have hd : isDigit d = true := hds d (by simp)
    have hih := ih rest (fun b hb => hds b (by simp [hb])) hrest
    rw [List.cons_append, takeDigits]
    simp only [hd, if_true, List.append_eq, hih]

theorem digitsVal_replicate48 (z : Nat) (ds : List Nat) :
    digitsVal (List.replicate z 48 ++ ds) = digitsVal ds := by
  induction z with
  | zero => simp
  | succ z ih =>
    rw [List.replicate_succ, List.cons_append]
    unfold digitsVal at *
    simpa using ih

/-! ## Number literal round trip -/

theorem numBoundary_elim (rest : List Nat) (h : numBoundary rest = true) :
    headDigit rest = false ∧ headIs 46 rest = false ∧ headIs 101 rest = false ∧
      headIs 69 rest = false := by
  cases rest with
  | nil => simp [headDigit, headIs]
  | cons b r =>
    simp [numBoundary, isDigit] at h
    simp [headDigit, headIs, isDigit]
    omega

theorem stripZeros_id (n k : Nat) (hn : n % 10 ≠ 0) : stripZeros n k = (n, k) := by
  cases k with
  | zero => rfl
  | succ k => simp [stripZeros, hn]

theorem normNum_zero_e (n : Nat) (neg : Bool) :
    normNum n 0 neg = (if neg then -(n : Int) else (n : Int), 0) := by
  unfold normNum
  by_cases h : n = 0
  · subst h; cases neg <;> simp
  · simp [h]

theorem normNum_neg_e (n k : Nat) (neg : Bool) (hk : k ≠ 0) (hn : n % 10 ≠ 0) :
    normNum n (-(k : Int)) neg = (if neg then -(n : Int) else (n : Int), k) := by
  have hn0 : n ≠ 0 := by intro h; subst h; simp at hn
  unfold normNum
  rw [if_neg hn0, if_neg (by omega : ¬ (0:Int) ≤ -(k : Int))]
  simp [Int.natAbs_neg, stripZeros_id n k hn]

theorem parseAfterFrac_boundary (n1 fl : Nat) (r3 : List Nat)
    (h : numBoundary r3 = true) :
    parseAfterFrac n1 fl r3 = some ((n1, -(fl : Int)), r3) := by
  obtain ⟨-, -, h101, h69⟩ := numBoundary_elim r3 h
  cases r3 with
  | nil => rfl
  | cons b r =>
    simp [headIs] at h101 h69
    simp [parseAfterFrac, h101, h69]

theorem parseAfterInt_boundary (n0 : Nat) (r1 : List Nat)
    (h : numBoundary r1 = true) :
    parseAfterInt n0 r1 = some ((n0, 0), r1) := by
  obtain ⟨-, h46, -, -⟩ := numBoundary_elim r1 h
  unfold parseAfterInt
  rw [if_neg (by simp [h46])]
  rw [parseAfterFrac_boundary n0 0 r1 h]
  simp

theorem parseAfterInt_frac (n0 : Nat) (fd rest : List Nat)
    (hfd : ∀ b ∈ fd, isDigit b = true) (hne : fd ≠ [])
    (hb : numBoundary rest = true) :
    parseAfterInt n0 (46 :: (fd ++ rest)) =
      some ((n0 * 10 ^ fd.length + digitsVal fd, -(fd.length : Int)), rest) := by
  unfold parseAfterInt
  rw [if_pos (by simp [headIs])]
  simp only [List.tail_cons]
  rw [takeDigits_append fd rest hfd (numBoundary_elim rest hb).1]
  rw [if_neg hne]
  rw [parseAfterFrac_boundary _ _ rest hb]

theorem parseNumCore_digits (n : Nat) (rest : List Nat) (hb : numBoundary rest = true) :
    parseNumCore (natDigits n ++ rest) = some ((n, 0), rest) := by
  obtain ⟨hdg, h46, -, -⟩ := numBoundary_elim rest hb
  by_cases hn : n = 0
  · subst hn
    have h0 : natDigits 0 ++ rest = 48 :: rest := rfl
    rw [h0]
    show (if (48 : Nat) = 48 then
        (if headDigit rest then none else parseAfterInt 0 rest)
      else if isDigit 48 then
        parseAfterInt (digitsVal (48 :: (takeDigits rest).1)) (takeDigits rest).2
      else none) = some ((0, 0), rest)
    rw [if_pos rfl, if_neg (by simp [hdg])]
    exact parseAfterInt_boundary 0 rest hb
  · cases hnd : natDigits n with
    | nil => exact absurd hnd (natDigits_ne_nil n)
    | cons d ds =>
      obtain ⟨hdig, hd48⟩ := natDigits_head n hn d ds hnd
      have hds : ∀ b ∈ ds, isDigit b = true := by
        intro b hbm
        exact natDigits_all_digits n b (by rw [hnd]; simp [hbm])
      rw [List.cons_append]
      show (if d = 48 then
          (if headDigit (ds ++ rest) then none else parseAfterInt 0 (ds ++ rest))
        else if isDigit d then
          parseAfterInt (digitsVal (d :: (takeDigits (ds ++ rest)).1)) (takeDigits (ds ++ rest)).2
        else none) = some ((n, 0), rest)
      rw [if_neg hd48, if_pos hdig]
      rw [takeDigits_append ds rest hds hdg]
      have hval : digitsVal (d :: ds) = n := by rw [← hnd, natDigits_val]
      show parseAfterInt (digitsVal (d :: ds)) rest = some ((n, 0), rest)
      rw [hval]
      exact parseAfterInt_boundary n rest hb

theorem parseNumCore_cons48 (tl : List Nat) (hdg : headDigit tl = false) :
    parseNumCore (48 :: tl) = parseAfterInt 0 tl := by
  simp only [parseNumCore]
  simp [hdg]

theorem parseNumCore_cons (d : Nat) (tl : List Nat) (hd48 : d ≠ 48)
    (hdig : isDigit d = true) :
    parseNumCore (d :: tl) =
      parseAfterInt (digitsVal (d :: (takeDigits tl).1)) (takeDigits tl).2 := by
  simp only [parseNumCore]
  rw [if_neg hd48, if_pos hdig]

theorem parseNumCore_frac_small (n k : Nat) (rest : List Nat)
    (hn : n ≠ 0) (hk : k ≠ 0) (hkL : k < (natDigits n).length)
    (hb : numBoundary rest = true) :
    parseNumCore ((natDigits n).take ((natDigits n).length - k) ++
        46 :: (natDigits n).drop ((natDigits n).length - k) ++ rest) =
      some ((n, -(k : Int)), rest) := by
  set s := natDigits n with hs
  set L := s.length with hL
  obtain ⟨b0, t0, hbt0⟩ : ∃ b0 t0, s = b0 :: t0 := by
    cases hc : s with
    | nil => exact absurd hc (natDigits_ne_nil n)
    | cons x y => exact ⟨x, y, rfl⟩
  obtain ⟨hdig0, h480⟩ := natDigits_head n hn b0 t0 hbt0
  have hAd : s.take (L - k) = b0 :: t0.take (L - k - 1) := by
    rw [hbt0, show L - k = (L - k - 1) + 1 by omega, List.take_succ_cons]
    simp
  set A2 := t0.take (L - k - 1) with hA2def
  have hsplit : s = (b0 :: A2) ++ s.drop (L - k) := by
    rw [← hAd, List.take_append_drop]
  have hA2 : ∀ b ∈ A2, isDigit b = true := by
    intro b hbm
    refine natDigits_all_digits n b ?_
    rw [← hs, hsplit]
    simp [hbm]
  have hB : ∀ b ∈ s.drop (L - k), isDigit b = true := by
    intro b hbm
    refine natDigits_all_digits n b ?_
    rw [← hs, hsplit]
    simp [hbm]
  have hBlen : (s.drop (L - k)).length = k := by
    simp [hL]
    omega
  have hBne : s.drop (L - k) ≠ [] := by
    intro hx
    have := congrArg List.length hx
    rw [hBlen] at this
    simp at this
    omega
  rw [hAd, List.cons_append, List.cons_append, parseNumCore_cons b0 _ h480 hdig0]
  rw [show A2 ++ 46 :: s.drop (L - k) ++ rest = A2 ++ (46 :: (s.drop (L - k) ++ rest)) by
    simp]
  rw [takeDigits_append A2 _ hA2 (by simp [headDigit, isDigit])]
  show parseAfterInt (digitsVal (b0 :: A2)) (46 :: (s.drop (L - k) ++ rest)) =
    some ((n, -(k : Int)), rest)
  rw [parseAfterInt_frac _ _ rest hB hBne hb]
  have hval : digitsVal (b0 :: A2) * 10 ^ (s.drop (L - k)).length +
      digitsVal (s.drop (L - k)) = n := by
    rw [← digitsVal_append, ← hsplit, hs, natDigits_val]
  rw [hBlen] at hval
  rw [hBlen, hval]

theorem parseNumCore_frac_large (n k : Nat) (rest : List Nat)
    (hk : k ≠ 0) (hkL : ¬ k < (natDigits n).length) (hb : numBoundary rest = true) :
    parseNumCore (48 :: 46 :: (List.replicate (k - (natDigits n).length) 48 ++ natDigits n)
        ++ rest) =
      some ((n, -(k : Int)), rest) := by
  set s := natDigits n with hs
  set L := s.length with hL
  have hds : ∀ b ∈ List.replicate (k - L) 48 ++ s, isDigit b = true := by
    intro b hbm
    rcases List.mem_append.mp hbm with h1 | h1
    · rw [List.eq_of_mem_replicate h1]
      simp [isDigit]
    · exact natDigits_all_digits n b h1
  have hsne : s ≠ [] := by rw [hs]; exact natDigits_ne_nil n
  have hne : List.replicate (k - L) 48 ++ s ≠ [] := by
    intro hx
    exact hsne (List.append_eq_nil.mp hx).2
  rw [show (48 : Nat) :: 46 :: (List.replicate (k - L) 48 ++ s) ++ rest =
    48 :: (46 :: ((List.replicate (k - L) 48 ++ s) ++ rest)) by simp]
  rw [parseNumCore_cons48 _ (by simp [headDigit, isDigit])]
  rw [parseAfterInt_frac 0 _ rest hds hne hb]
  have hval : digitsVal (List.replicate (k - L) 48 ++ s) = n := by
    rw [digitsVal_replicate48, hs, natDigits_val]
  have hkL2 : ¬ k < L := hkL
  have hlen : (List.replicate (k - L) 48 ++ s).length = k := by
    simp [hL]
    omega
  rw [hval, hlen]
  simp

theorem printNumCore_head (n k : Nat) : ∃ d t,
    printNumCore n k = d :: t ∧ isDigit d = true := by
  unfold printNumCore
  by_cases hk : k = 0
  · rw [if_pos hk]
    cases hc : natDigits n with
    | nil => exact absurd hc (natDigits_ne_nil n)
    | cons d t =>
      refine ⟨d, t, rfl, ?_⟩
      exact natDigits_all_digits n d (by rw [hc]; simp)
  · rw [if_neg hk]
    by_cases hkL : k < (natDigits n).length
    · rw [if_pos hkL]
      cases hc : natDigits n with
      | nil => exact absurd hc (natDigits_ne_nil n)
      | cons d t =>
        rw [hc] at hkL
        simp only [List.length_cons] at hkL ⊢
        have htake : List.take (t.length + 1 - k) (d :: t) =
            d :: List.take (t.length - k) t := by
          rw [show t.length + 1 - k = (t.length - k) + 1 by omega, List.take_succ_cons]
        rw [htake, List.cons_append]
        refine ⟨d, _, rfl, ?_⟩
        exact natDigits_all_digits n d (by rw [hc]; simp)
    · rw [if_neg hkL]
      exact ⟨48, _, rfl, by simp [isDigit]⟩

theorem printNum_head (m : Int) (k : Nat) : ∃ b t,
    printNum m k = b :: t ∧ (b = 45 ∨ isDigit b = true) := by
  unfold printNum
  by_cases hm : m < 0
  · rw [if_pos hm]
    exact ⟨45, _, rfl, Or.inl rfl⟩
  · rw [if_neg hm]
    obtain ⟨d, t, hdt, hd⟩ := printNumCore_head m.natAbs k
    exact ⟨d, t, hdt, Or.inr hd⟩

theorem parseNumCore_printNumCore (n k : Nat) (rest : List Nat)
    (hnk : k ≠ 0 → n ≠ 0) (hb : numBoundary rest = true) :
    parseNumCore (printNumCore n k ++ rest) =
      some ((n, if k = 0 then 0 else -(k : Int)), rest) := by
  unfold printNumCore
  by_cases hk : k = 0
  · rw [if_pos hk, if_pos hk]
    exact parseNumCore_digits n rest hb
  · rw [if_neg hk, if_neg hk]
    by_cases hkL : k < (natDigits n).length
    · rw [if_pos hkL]
      exact parseNumCore_frac_small n k rest (hnk hk) hk hkL hb
    · rw [if_neg hkL]
      exact parseNumCore_frac_large n k rest hk hkL hb

theorem parseNum_print (chk : Bool) (m : Int) (k : Nat) (rest : List Nat)
    (hc1 : k = 0 ∨ m.natAbs % 10 ≠ 0) (hc2 : m = 0 → k = 0)
    (hc3 : inRangeF m k = true) (hb : numBoundary rest = true) :
    parseNum chk (printNum m k ++ rest) = some ((m, k), rest) := by
  have hnk : k ≠ 0 → m.natAbs ≠ 0 := by
    intro hk h0
    exact hk (hc2 (by omega))
  have hcp := parseNumCore_printNumCore m.natAbs k rest hnk hb
  have hnr : numRange chk (m, k) rest = some ((m, k), rest) := by
    unfold numRange
    rw [hc3]
    simp
  by_cases hm : m < 0
  · have hpr : printNum m k ++ rest = 45 :: (printNumCore m.natAbs k ++ rest) := by
      unfold printNum
      rw [if_pos hm, List.cons_append]
    rw [hpr]
    have hstep : parseNum chk (45 :: (printNumCore m.natAbs k ++ rest)) =
        match parseNumCore (printNumCore m.natAbs k ++ rest) with
        | some (p, r) => numRange chk (normNum p.1 p.2 true) r
        | none => none := by
      unfold parseNum
      rw [if_pos (by simp [headIs])]
      simp only [List.tail_cons]
    rw [hstep, hcp]
    show numRange chk (normNum m.natAbs (if k = 0 then 0 else -(k : Int)) true) rest =
      some ((m, k), rest)
    by_cases hk : k = 0
    · rw [if_pos hk]
      subst hk
      rw [show normNum m.natAbs 0 true = (-(m.natAbs : Int), 0) by
        rw [normNum_zero_e]; simp]
      have hmm : -(m.natAbs : Int) = m := by omega
      rw [hmm]
      exact hnr
    · have h10 : m.natAbs % 10 ≠ 0 := by
        rcases hc1 with h | h
        · exact absurd h hk
        · exact h
      rw [if_neg hk]
      rw [show normNum m.natAbs (-(k : Int)) true = (-(m.natAbs : Int), k) by
        rw [normNum_neg_e _ _ _ hk h10]; simp]
      have hmm : -(m.natAbs : Int) = m := by omega
      rw [hmm]
      exact hnr
  · have hpr : printNum m k ++ rest = printNumCore m.natAbs k ++ rest := by
      unfold printNum
      rw [if_neg hm]
    rw [hpr]
    obtain ⟨d, t, hdt, hd⟩ := printNumCore_head m.natAbs k
    have hstep : parseNum chk (printNumCore m.natAbs k ++ rest) =
        match parseNumCore (printNumCore m.natAbs k ++ rest) with
        | some (p, r) => numRange chk (normNum p.1 p.2 false) r
        | none => none := by
      unfold parseNum
      rw [if_neg (by
        rw [hdt, List.cons_append]
        simp [headIs, isDigit] at hd ⊢
        omega)]
    rw [hstep, hcp]
    show numRange chk (normNum m.natAbs (if k = 0 then 0 else -(k : Int)) false) rest =
      some ((m, k), rest)
    by_cases hk : k = 0
    · rw [if_pos hk]
      subst hk
      rw [show normNum m.natAbs 0 false = ((m.natAbs : Int), 0) by
        rw [normNum_zero_e]; simp]
      have hmm : (m.natAbs : Int) = m := by omega
      rw [hmm]
      exact hnr
    · have h10 : m.natAbs % 10 ≠ 0 := by
        rcases hc1 with h | h
        · exact absurd h hk
        · exact h
      rw [if_neg hk]
      rw [show normNum m.natAbs (-(k : Int)) false = ((m.natAbs : Int), k) by
        rw [normNum_neg_e _ _ _ hk h10]; simp]
      have hmm : (m.natAbs : Int) = m := by omega
      rw [hmm]
      exact hnr

/-! ## String escape round trip -/

theorem hexVal_hexDigitByte (x : Nat) (h : x < 16) : hexVal (hexDigitByte x) = some x := by
  interval_cases x <;> rfl

theorem utf8encode_small (b : Nat) (h : b < 128) : utf8encode b = [b] := by
  unfold utf8encode
  rw [if_pos h]

theorem parseStr_escStr : ∀ (s rest : List Nat),
    parseStr (escStr s ++ 34 :: rest) = some (s, rest) := by
  intro s
  induction s with
  | nil =>
    intro rest
    show parseStr (34 :: rest) = some ([], rest)
    rw [parseStr.eq_def]
    simp
  | cons b s ih =>
    intro rest
    have hesc : escStr (b :: s) ++ 34 :: rest = escByte b ++ (escStr s ++ 34 :: rest) := by
      show (escByte b ++ escStr s) ++ 34 :: rest = _
      rw [List.append_assoc]
    rw [hesc]
    by_cases h34 : b = 34
    · subst h34
      show parseStr (92 :: 34 :: (escStr s ++ 34 :: rest)) = some (34 :: s, rest)
      rw [parseStr.eq_def]
      simp [escCode, ih rest]
    · by_cases h92 : b = 92
      · subst h92
        show parseStr (92 :: 92 :: (escStr s ++ 34 :: rest)) = some (92 :: s, rest)
        rw [parseStr.eq_def]
        simp [escCode, ih rest]
      · by_cases h10 : b = 10
        · subst h10
          show parseStr (92 :: 110 :: (escStr s ++ 34 :: rest)) = some (10 :: s, rest)
          rw [parseStr.eq_def]
          simp [escCode, ih rest]
        · by_cases h13 : b = 13
          · subst h13
            show parseStr (92 :: 114 :: (escStr s ++ 34 :: rest)) = some (13 :: s, rest)
            rw [parseStr.eq_def]
            simp [escCode, ih rest]
          · by_cases h9 : b = 9
            · subst h9
              show parseStr (92 :: 116 :: (escStr s ++ 34 :: rest)) = some (9 :: s, rest)
              rw [parseStr.eq_def]
              simp [escCode, ih rest]
            · by_cases hu : b < 32 ∨ b = 60 ∨ b = 62 ∨ b = 38
              · have hbe : escByte b =
                    [92, 117, 48, 48, hexDigitByte (b / 16), hexDigitByte (b % 16)] := by
                  unfold escByte
                  rw [if_neg h34, if_neg h92, if_neg h10, if_neg h13, if_neg h9, if_pos hu]
                rw [hbe]
                show parseStr (92 :: 117 :: 48 :: 48 :: hexDigitByte (b / 16) ::
                  hexDigitByte (b % 16) :: (escStr s ++ 34 :: rest)) = some (b :: s, rest)
                have hx1 : hexVal 48 = some 0 := rfl
                have hx3 : hexVal (hexDigitByte (b / 16)) = some (b / 16) :=
                  hexVal_hexDigitByte _ (by omega)
                have hx4 : hexVal (hexDigitByte (b % 16)) = some (b % 16) :=
                  hexVal_hexDigitByte _ (by omega)
                rw [parseStr.eq_def]
                simp only [hx1, hx3, hx4, ih rest]
                norm_num
                rw [show b / 16 * 16 + b % 16 = b by omega]
                rw [utf8encode_small b (by omega)]
                simp
              · have hbe : escByte b = [b] := by
                  unfold escByte
                  rw [if_neg h34, if_neg h92, if_neg h10, if_neg h13, if_neg h9, if_neg hu]
                rw [hbe]
                show parseStr (b :: (escStr s ++ 34 :: rest)) = some (b :: s, rest)
                have hnb32 : ¬ b < 32 := by omega
                rw [parseStr.eq_def]
                simp [h34, h92, hnb32, ih rest]

/-! ## Key order and sorted insertion -/

theorem keyLt_irrefl : ∀ a, keyLt a a = false := by
  intro a
  induction a with
  | nil => rfl
  | cons x xs ih => simp [keyLt, ih]

theorem keyLt_asymm : ∀ a b, keyLt a b = true → keyLt b a = false := by
  intro a
  induction a with
  | nil =>
    intro b h
    cases b with
    | nil => simp [keyLt] at h
    | cons y ys => rfl
  | cons x xs ih =>
    intro b h
    cases b with
    | nil => simp [keyLt] at h
    | cons y ys =>
      simp only [keyLt] at h ⊢
      by_cases hxy : x < y
      · rw [if_neg (by omega), if_neg (by omega)]
      · rw [if_neg hxy] at h
        by_cases hxy2 : x = y
        · subst hxy2
          rw [if_pos rfl] at h
          rw [if_neg (by omega), if_pos rfl]
          exact ih ys h
        · rw [if_neg hxy2] at h
          cases h

theorem keyLt_ne : ∀ a b, keyLt a b = true → a ≠ b := by
  intro a b h hab
  subst hab
  rw [keyLt_irrefl] at h
  cases h

theorem keyLt_trans : ∀ a b c, keyLt a b = true → keyLt b c = true → keyLt a c = true := by
  intro a
  induction a with
  | nil =>
    intro b c hab hbc
    cases c with
    | nil =>
      cases b with
      | nil => simp [keyLt] at hab
      | cons y ys => simp [keyLt] at hbc
    | cons z zs => rfl
  | cons x xs ih =>
    intro b c hab hbc
    cases b with
    | nil => simp [keyLt] at hab
    | cons y ys =>
      cases c with
      | nil => simp [keyLt] at hbc
      | cons z zs =>
        simp only [keyLt] at hab hbc ⊢
        by_cases hxy : x < y
        · by_cases hyz : y < z
          · rw [if_pos (by omega)]
          · rw [if_neg hyz] at hbc
            by_cases hyz2 : y = z
            · subst hyz2
              rw [if_pos hxy]
            · rw [if_neg hyz2] at hbc
              cases hbc
        · rw [if_neg hxy] at hab
          by_cases hxy2 : x = y
          · subst hxy2
            rw [if_pos rfl] at hab
            by_cases hyz : x < z
            · rw [if_pos hyz]
            · rw [if_neg hyz] at hbc ⊢
              by_cases hyz2 : x = z
              · subst hyz2
                rw [if_pos rfl] at hbc ⊢
                exact ih ys zs hab hbc
              · rw [if_neg hyz2] at hbc
                cases hbc
          · rw [if_neg hxy2] at hab
            cases hab

theorem keyLt_conn : ∀ a b, a ≠ b → keyLt a b = true ∨ keyLt b a = true := by
  intro a
  induction a with
  | nil =>
    intro b hne
    cases b with
    | nil => exact absurd rfl hne
    | cons y ys => left; rfl
  | cons x xs ih =>
    intro b hne
    cases b with
    | nil => right; rfl
    | cons y ys =>
      by_cases hxy : x < y
      · left; simp [keyLt, hxy]
      · by_cases hyx : y < x
        · right; simp [keyLt, hyx]
        · have hxy2 : x = y := by omega
          subst hxy2
          have hne2 : xs ≠ ys := by
            intro h
            exact hne (by rw [h])
          rcases ih ys hne2 with h | h
          · left; simp [keyLt, h]
          · right; simp [keyLt, h]

theorem sortedKeys_cons_elim : ∀ (kv : List Nat × Jval) rest,
    sortedKeys (kv :: rest) = true →
    sortedKeys rest = true ∧ ∀ kv2 ∈ rest, keyLt kv.1 kv2.1 = true := by
  intro kv rest
  induction rest generalizing kv with
  | nil => intro h; exact ⟨rfl, by simp⟩
  | cons kv2 rest ih =>
    intro h
    simp only [sortedKeys, Bool.and_eq_true] at h
    obtain ⟨h1, h2⟩ := h
    obtain ⟨h3, h4⟩ := ih kv2 h2
    refine ⟨h2, ?_⟩
    intro kv3 hm
    rcases List.mem_cons.mp hm with rfl | hm2
    · exact h1
    · exact keyLt_trans _ _ _ h1 (h4 kv3 hm2)

theorem sortedKeys_cons_intro : ∀ (kv : List Nat × Jval) rest,
    sortedKeys rest = true → (∀ kv2 ∈ rest, keyLt kv.1 kv2.1 = true) →
    sortedKeys (kv :: rest) = true := by
  intro kv rest h1 h2
  cases rest with
  | nil => rfl
  | cons kv2 rest =>
    simp only [sortedKeys, Bool.and_eq_true]
    exact ⟨h2 kv2 (by simp), h1⟩

theorem insertKV_append_gt (k : List Nat) (v : Jval) : ∀ acc,
    (∀ kv ∈ acc, keyLt kv.1 k = true) → insertKV k v acc = acc ++ [(k, v)] := by
  intro acc
  induction acc with
  | nil => intro h; rfl
  | cons kv acc ih =>
    intro h
    have hlt : keyLt kv.1 k = true := h kv (by simp)
    simp only [insertKV]
    rw [if_neg (by rw [keyLt_asymm _ _ hlt]; simp),
      if_neg (Ne.symm (keyLt_ne _ _ hlt))]
    rw [ih (fun kv2 hm => h kv2 (by simp [hm]))]
    simp

theorem insertKV_mem (k : List Nat) (v : Jval) : ∀ acc kv',
    kv' ∈ insertKV k v acc → kv' = (k, v) ∨ kv' ∈ acc := by
  intro acc
  induction acc with
  | nil =>
    intro kv' h
    simp [insertKV] at h
    exact Or.inl h
  | cons kv acc ih =>
    intro kv' h
    simp only [insertKV] at h
    split at h
    · rcases List.mem_cons.mp h with rfl | hm
      · exact Or.inl rfl
      · exact Or.inr hm
    · split at h
      · rcases List.mem_cons.mp h with rfl | hm
        · exact Or.inl rfl
        · exact Or.inr (by simp [hm])
      · rcases List.mem_cons.mp h with rfl | hm
        · exact Or.inr (by simp)
        · rcases ih kv' hm with h1 | h1
          · exact Or.inl h1
          · exact Or.inr (by simp [h1])

theorem insertKV_head : ∀ (k : List Nat) (v : Jval) acc, ∃ h t,
    insertKV k v acc = h :: t ∧ (h = (k, v) ∨ ∃ t0, acc = h :: t0) := by
  intro k v acc
  cases acc with
  | nil => exact ⟨(k, v), [], rfl, Or.inl rfl⟩
  | cons kv acc =>
    simp only [insertKV]
    by_cases h1 : keyLt k kv.1
    · rw [if_pos h1]
      exact ⟨(k, v), _, rfl, Or.inl rfl⟩
    · rw [if_neg h1]
      by_cases h2 : k = kv.1
      · rw [if_pos h2]
        exact ⟨(k, v), _, rfl, Or.inl rfl⟩
      · rw [if_neg h2]
        exact ⟨kv, _, rfl, Or.inr ⟨_, rfl⟩⟩

theorem sortedKeys_insert (k : List Nat) (v : Jval) : ∀ acc,
    sortedKeys acc = true → sortedKeys (insertKV k v acc) = true := by
  intro acc
  induction acc with
  | nil => intro h; rfl
  | cons kv acc ih =>
    intro h
    obtain ⟨hs, hall⟩ := sortedKeys_cons_elim kv acc h
    simp only [insertKV]
    by_cases h1 : keyLt k kv.1
    · rw [if_pos h1]
      refine sortedKeys_cons_intro _ _ h ?_
      intro kv2 hm
      rcases List.mem_cons.mp hm with rfl | hm2
      · exact h1
      · exact keyLt_trans _ _ _ h1 (hall kv2 hm2)
    · rw [if_neg h1]
      by_cases h2 : k = kv.1
      · rw [if_pos h2]
        refine sortedKeys_cons_intro _ _ hs ?_
        intro kv2 hm
        rw [h2]
        exact hall kv2 hm
      · rw [if_neg h2]
        have hk : keyLt kv.1 k = true := by
          rcases keyLt_conn k kv.1 h2 with hc | hc
          · exact absurd hc h1
          · exact hc
        refine sortedKeys_cons_intro _ _ (ih hs) ?_
        intro kv2 hm
        rcases insertKV_mem k v acc kv2 hm with rfl | hm2
        · exact hk
        · exact hall kv2 hm2

theorem canonMembers_mem : ∀ kvs, canonMembers kvs = true →
    ∀ kv ∈ kvs, canonJ kv.2 = true := by
  intro kvs
  induction kvs with
  | nil => intro h kv hm; cases hm
  | cons kv0 kvs ih =>
    intro h kv hm
    simp only [canonMembers, Bool.and_eq_true] at h
    rcases List.mem_cons.mp hm with rfl | hm2
    · exact h.1
    · exact ih h.2 kv hm2

theorem canonMembers_intro : ∀ kvs, (∀ kv ∈ kvs, canonJ kv.2 = true) →
    canonMembers kvs = true := by
  intro kvs
  induction kvs with
  | nil => intro h; rfl
  | cons kv0 kvs ih =>
    intro h
    simp only [canonMembers, Bool.and_eq_true]
    exact ⟨h kv0 (by simp), ih (fun kv hm => h kv (by simp [hm]))⟩

theorem canonMembers_insert (k : List Nat) (v : Jval) (acc : List (List Nat × Jval))
    (hv : canonJ v = true) (hacc : canonMembers acc = true) :
    canonMembers (insertKV k v acc) = true := by
  refine canonMembers_intro _ ?_
  intro kv hm
  rcases insertKV_mem k v acc kv hm with rfl | hm2
  · exact hv
  · exact canonMembers_mem acc hacc kv hm2

theorem mkObj_sorted (ps : List (List Nat × Jval)) : sortedKeys (mkObj ps) = true := by
  unfold mkObj
  suffices h : ∀ acc, sortedKeys acc = true →
      sortedKeys (ps.foldl (fun acc kv => insertKV kv.1 kv.2 acc) acc) = true by
    exact h [] rfl
  induction ps with
  | nil => intro acc h; exact h
  | cons p ps ih =>
    intro acc h
    exact ih _ (sortedKeys_insert p.1 p.2 acc h)

theorem mkObj_canon (ps : List (List Nat × Jval))
    (hps : ∀ kv ∈ ps, canonJ kv.2 = true) : canonMembers (mkObj ps) = true := by
  unfold mkObj
  suffices h : ∀ (ps : List (List Nat × Jval)) (acc : List (List Nat × Jval)),
      (∀ kv ∈ ps, canonJ kv.2 = true) → canonMembers acc = true →
      canonMembers (ps.foldl (fun acc kv => insertKV kv.1 kv.2 acc) acc) = true by
    exact h ps [] hps rfl
  intro ps2
  induction ps2 with
  | nil => intro acc h1 h2; exact h2
  | cons p ps2 ih =>
    intro acc h1 h2
    exact ih _ (fun kv hm => h1 kv (by simp [hm]))
      (canonMembers_insert p.1 p.2 acc (h1 p (by simp)) h2)

theorem sortedKeys_append_single : ∀ (acc : List (List Nat × Jval)) p,
    sortedKeys acc = true → (∀ a ∈ acc, keyLt a.1 p.1 = true) →
    sortedKeys (acc ++ [p]) = true := by
  intro acc
  induction acc with
  | nil => intro p h1 h2; rfl
  | cons a acc ih =>
    intro p h1 h2
    obtain ⟨hs, hall⟩ := sortedKeys_cons_elim a acc h1
    rw [List.cons_append]
    refine sortedKeys_cons_intro _ _ (ih p hs (fun q hm => h2 q (by simp [hm]))) ?_
    intro kv2 hm
    rcases List.mem_append.mp hm with hm2 | hm2
    · exact hall kv2 hm2
    · rw [List.mem_singleton.mp hm2]
      exact h2 a (by simp)

theorem mkObj_id_of_sorted : ∀ (ps : List (List Nat × Jval)),
    sortedKeys ps = true → mkObj ps = ps := by
  suffices h : ∀ (ps : List (List Nat × Jval)) (acc : List (List Nat × Jval)),
      sortedKeys acc = true →
      (∀ a ∈ acc, ∀ p ∈ ps, keyLt a.1 p.1 = true) → sortedKeys ps = true →
      ps.foldl (fun acc kv => insertKV kv.1 kv.2 acc) acc = acc ++ ps by
    intro ps hps
    unfold mkObj
    rw [h ps [] rfl (by simp) hps]
    rfl
  intro ps
  induction ps with
  | nil => intro acc h1 h2 h3; simp
  | cons p ps ih =>
    intro acc h1 h2 h3
    obtain ⟨hs, hall⟩ := sortedKeys_cons_elim p ps h3
    have hins : insertKV p.1 p.2 acc = acc ++ [p] := by
      rw [insertKV_append_gt p.1 p.2 acc (fun kv hm => h2 kv hm p (by simp))]
    show List.foldl _ (insertKV p.1 p.2 acc) ps = acc ++ p :: ps
    rw [hins, ih (acc ++ [p])
      (sortedKeys_append_single acc p h1 (fun a hm => h2 a hm p (by simp)))
      (by
        intro a hm q hq
        rcases List.mem_append.mp hm with hm2 | hm2
        · exact h2 a hm2 q (by simp [hq])
        · rw [List.mem_singleton.mp hm2]
          exact hall q hq)
      hs]
    simp

/-! ## The parser produces canonical values -/

theorem stripZeros_canon : ∀ (k n : Nat), n ≠ 0 →
    (stripZeros n k).1 ≠ 0 ∧ ((stripZeros n k).2 = 0 ∨ (stripZeros n k).1 % 10 ≠ 0) := by
  intro k
  induction k with
  | zero => intro n hn; exact ⟨hn, Or.inl rfl⟩
  | succ k ih =>
    intro n hn
    by_cases h10 : n % 10 = 0
    · have h1 : stripZeros n (k + 1) = stripZeros (n / 10) k := by
        simp [stripZeros, h10]
      rw [h1]
      exact ih (n / 10) (by omega)
    · have h1 : stripZeros n (k + 1) = (n, k + 1) := by
        simp [stripZeros, h10]
      rw [h1]
      exact ⟨hn, Or.inr h10⟩

theorem normNum_canon : ∀ (n : Nat) (e0 : Int) (neg : Bool) (m : Int) (k : Nat),
    normNum n e0 neg = (m, k) →
    (k = 0 ∨ m.natAbs % 10 ≠ 0) ∧ (m = 0 → k = 0) := by
  intro n e0 neg m k h
  unfold normNum at h
  by_cases hn : n = 0
  · rw [if_pos hn] at h
    cases h
    exact ⟨Or.inl rfl, fun _ => rfl⟩
  · rw [if_neg hn] at h
    by_cases he : (0 : Int) ≤ e0
    · rw [if_pos he] at h
      cases h
      exact ⟨Or.inl rfl, fun _ => rfl⟩
    · rw [if_neg he] at h
      obtain ⟨hs1, hs2⟩ := stripZeros_canon e0.natAbs n hn
      cases h
      constructor
      · rcases hs2 with h2 | h2
        · exact Or.inl h2
        · refine Or.inr ?_
          cases neg <;> simpa using h2
      · intro hm0
        exfalso
        apply hs1
        cases neg <;> simp at hm0 <;> omega
  
theorem parseNum_canon (chk : Bool) (bs : List Nat) (mk : Int × Nat) (r : List Nat)
    (h : parseNum chk bs = some (mk, r)) :
    ((mk.2 = 0 ∨ mk.1.natAbs % 10 ≠ 0) ∧ (mk.1 = 0 → mk.2 = 0)) ∧
      (chk = true → inRangeF mk.1 mk.2 = true) := by
  unfold parseNum numRange at h
  split at h
  · split at h
    · rename_i p r2 heq
      split at h
      · cases h
      · rename_i hin
        rw [Option.some.injEq, Prod.mk.injEq] at h
        obtain ⟨h1, -⟩ := h
        rw [h1] at hin
        refine ⟨normNum_canon p.1 p.2 true mk.1 mk.2 (by rw [h1]), fun hck => ?_⟩
        subst hck
        cases hR : inRangeF mk.1 mk.2 with
        | true => rfl
        | false =>
          rw [hR] at hin
          exact absurd rfl hin
    · cases h
  · split at h
    · rename_i p r2 heq
      split at h
      · cases h
      · rename_i hin
        rw [Option.some.injEq, Prod.mk.injEq] at h
        obtain ⟨h1, -⟩ := h
        rw [h1] at hin
        refine ⟨normNum_canon p.1 p.2 false mk.1 mk.2 (by rw [h1]), fun hck => ?_⟩
        subst hck
        cases hR : inRangeF mk.1 mk.2 with
        | true => rfl
        | false =>
          rw [hR] at hin
          exact absurd rfl hin
    · cases h

set_option maxRecDepth 8000 in
theorem parse_canon : ∀ fuel,
    (∀ bs v r, parseVal true fuel bs = some (v, r) → canonJ v = true) ∧
    (∀ bs vs r, parseElems true fuel bs = some (vs, r) → canonElems vs = true) ∧
    (∀ bs ps r, parseMembers true fuel bs = some (ps, r) → ∀ kv ∈ ps, canonJ kv.2 = true) := by
  intro fuel
  induction fuel with
  | zero =>
    refine ⟨?_, ?_, ?_⟩ <;> intro bs x r h <;>
      simp [parseVal, parseElems, parseMembers] at h
  | succ fuel ih =>
    obtain ⟨ihV, ihE, ihM⟩ := ih
    refine ⟨?_, ?_, ?_⟩
    · intro bs v r h
      simp only [parseVal] at h
      repeat' split at h
      all_goals try (cases h; done)
      all_goals cases h
      all_goals first
        | (simp [canonJ, canonElems, canonMembers, sortedKeys]; done)
        | (rename_i x mk heq
           have hpn := parseNum_canon _ _ _ _ heq
           simp only [canonJ, Bool.and_eq_true, Bool.or_eq_true, decide_eq_true_eq]
           exact ⟨⟨hpn.1.1, by have := hpn.1.2; tauto⟩, hpn.2 rfl⟩)
        | (simp only [canonJ]
           exact ihE _ _ _ (by assumption))
        | (simp only [canonJ, Bool.and_eq_true]
           exact ⟨mkObj_canon _ (ihM _ _ _ (by assumption)), mkObj_sorted _⟩)
    · intro bs vs r h
      simp only [parseElems] at h
      repeat' split at h
      all_goals try (cases h; done)
      all_goals cases h
      all_goals simp only [canonElems, Bool.and_eq_true, and_true]
      all_goals first
        | exact ihV _ _ _ (by assumption)
        | exact ⟨ihV _ _ _ (by assumption), ihE _ _ _ (by assumption)⟩
    · intro bs ps r h
      simp only [parseMembers] at h
      repeat' split at h
      all_goals try (cases h; done)
      all_goals cases h
      all_goals intro kv hm
      all_goals first
        | (rcases List.mem_cons.mp hm with rfl | hm2
           · exact ihV _ _ _ (by assumption)
           · exact ihM _ _ _ (by assumption) kv hm2)
        | (rw [List.mem_singleton.mp hm]
           exact ihV _ _ _ (by assumption))

/-! ## Printer head bytes and size bounds -/

theorem printJval_head (v : Jval) : ∃ b t, printJval v = b :: t ∧
    isWS b = false ∧ b ≠ 93 ∧ b ≠ 125 ∧ b ≠ 44 := by
  cases v with
  | jnull => exact ⟨110, _, rfl, by decide, by decide, by decide, by decide⟩
  | jbool bv => cases bv with
    | true => exact ⟨116, _, rfl, by decide, by decide, by decide, by decide⟩
    | false => exact ⟨102, _, rfl, by decide, by decide, by decide, by decide⟩
  | jnum m k =>
    obtain ⟨b, t, hbt, hb⟩ := printNum_head m k
    refine ⟨b, t, by simp [printJval, hbt], ?_, ?_, ?_, ?_⟩ <;>
      · simp [isWS, isDigit] at hb ⊢
        omega
  | jstr s => exact ⟨34, _, rfl, by decide, by decide, by decide, by decide⟩
  | jarr xs => exact ⟨91, _, rfl, by decide, by decide, by decide, by decide⟩
  | jobj kvs => exact ⟨123, _, rfl, by decide, by decide, by decide, by decide⟩

theorem printElems_head (v : Jval) (vs : List Jval) : ∃ b t,
    printElems (v :: vs) = b :: t ∧ isWS b = false ∧ b ≠ 93 ∧ b ≠ 125 ∧ b ≠ 44 := by
  obtain ⟨b, t, hbt, h1, h2, h3, h4⟩ := printJval_head v
  cases vs with
  | nil => exact ⟨b, t, by simp [printElems, hbt], h1, h2, h3, h4⟩
  | cons v2 vs2 =>
    refine ⟨b, t ++ 44 :: printElems (v2 :: vs2), ?_, h1, h2, h3, h4⟩
    show printJval v ++ 44 :: printElems (v2 :: vs2) = _
    rw [hbt]
    simp

theorem printElems_single (v : Jval) : printElems [v] = printJval v := by
  simp [printElems]

theorem printElems_cons2 (v v2 : Jval) (vs : List Jval) :
    printElems (v :: v2 :: vs) = printJval v ++ 44 :: printElems (v2 :: vs) := by
  simp [printElems]

theorem printMembers_single (kv : List Nat × Jval) :
    printMembers [kv] = 34 :: (escStr kv.1 ++ 34 :: 58 :: printJval kv.2) := by
  simp [printMembers]

theorem printMembers_cons2 (kv kv2 : List Nat × Jval) (kvs : List (List Nat × Jval)) :
    printMembers (kv :: kv2 :: kvs) =
      (34 :: (escStr kv.1 ++ 34 :: 58 :: printJval kv.2)) ++ 44 :: printMembers (kv2 :: kvs) := by
  simp [printMembers]

theorem sizeElems_single (v : Jval) : sizeElems [v] = 1 + sizeJ v := by
  simp [sizeElems]

theorem sizeElems_cons2 (v v2 : Jval) (vs : List Jval) :
    sizeElems (v :: v2 :: vs) = 1 + sizeJ v + sizeElems (v2 :: vs) := by
  simp [sizeElems]

theorem sizeMembers_single (kv : List Nat × Jval) : sizeMembers [kv] = 1 + sizeJ kv.2 := by
  simp [sizeMembers]

theorem sizeMembers_cons2 (kv kv2 : List Nat × Jval) (kvs : List (List Nat × Jval)) :
    sizeMembers (kv :: kv2 :: kvs) = 1 + sizeJ kv.2 + sizeMembers (kv2 :: kvs) := by
  simp [sizeMembers]

theorem sizeJ_pos : ∀ v : Jval, 1 ≤ sizeJ v := by
  intro v
  cases v with
  | jarr xs => cases xs <;> simp [sizeJ] <;> omega
  | jobj kvs => cases kvs <;> simp [sizeJ] <;> omega
  | _ => simp [sizeJ]

theorem sizeElems_pos : ∀ vs : List Jval, 1 ≤ sizeElems vs := by
  intro vs
  cases vs with
  | nil => simp [sizeElems]
  | cons v vs2 => cases vs2 <;> simp [sizeElems] <;> omega

theorem sizeMembers_pos : ∀ kvs : List (List Nat × Jval), 1 ≤ sizeMembers kvs := by
  intro kvs
  cases kvs with
  | nil => simp [sizeMembers]
  | cons kv kvs2 => cases kvs2 <;> simp [sizeMembers] <;> omega

theorem printNum_ne_nil (m : Int) (k : Nat) : printNum m k ≠ [] := by
  obtain ⟨b, t, hbt, -⟩ := printNum_head m k
  rw [hbt]
  simp

theorem sizeJ_le_printJval : ∀ v, sizeJ v ≤ (printJval v).length := by
  intro v
  refine printJval.induct (fun v => sizeJ v ≤ (printJval v).length)
    (fun kvs => sizeMembers kvs ≤ (printMembers kvs).length + 1)
    (fun xs => sizeElems xs ≤ (printElems xs).length + 1)
    ?_ ?_ ?_ ?_ ?_ ?_ ?_ ?_ ?_ ?_ ?_ ?_ ?_ v
  · simp [sizeJ, printJval]
  · simp [sizeJ, printJval]
  · simp [sizeJ, printJval]
  · intro m k
    have hne := printNum_ne_nil m k
    have hlen : 1 ≤ (printNum m k).length := by
      cases hc : printNum m k with
      | nil => exact absurd hc hne
      | cons b t => simp
    simp [sizeJ, printJval]
    omega
  · intro s
    simp [sizeJ, printJval]
  · intro xs hxs
    cases xs with
    | nil => simp [sizeJ, printJval, printElems]
    | cons v2 vs2 =>
      simp only [sizeJ, printJval, List.length_cons, List.length_append] at hxs ⊢
      omega
  · intro kvs hkvs
    cases kvs with
    | nil => simp [sizeJ, printJval, printMembers]
    | cons kv2 kvs2 =>
      simp only [sizeJ, printJval, List.length_cons, List.length_append] at hkvs ⊢
      omega
  · simp [sizeElems, printElems]
  · intro v2 h1
    rw [sizeElems_single, printElems_single]
    omega
  · intro v2 vs hne h1 h2
    cases vs with
    | nil => exact absurd rfl hne
    | cons v3 vs3 =>
      rw [sizeElems_cons2, printElems_cons2]
      simp only [List.length_append, List.length_cons]
      omega
  · simp [sizeMembers, printMembers]
  · intro kv h1
    rw [sizeMembers_single, printMembers_single]
    simp only [List.length_cons, List.length_append]
    omega
  · intro kv rest hne h1 h2
    cases rest with
    | nil => exact absurd rfl hne
    | cons kv2 rest2 =>
      rw [sizeMembers_cons2, printMembers_cons2]
      simp only [List.length_append, List.length_cons]
      omega

/-! ## Printed values re-parse to themselves -/

theorem skipWS_cons (b : Nat) (bs : List Nat) (h : isWS b = false) :
    skipWS (b :: bs) = b :: bs := by
  simp [skipWS, h]

theorem numBoundary44 (r : List Nat) : numBoundary (44 :: r) = true := by
  simp [numBoundary, isDigit]

theorem numBoundary93 (r : List Nat) : numBoundary (93 :: r) = true := by
  simp [numBoundary, isDigit]

theorem numBoundary125 (r : List Nat) : numBoundary (125 :: r) = true := by
  simp [numBoundary, isDigit]

theorem numHead_props (b : Nat) (h : b = 45 ∨ isDigit b = true) :
    isWS b = false ∧ b ≠ 110 ∧ b ≠ 116 ∧ b ≠ 102 ∧ b ≠ 34 ∧ b ≠ 91 ∧ b ≠ 123 ∧
      (b = 45 || isDigit b) = true := by
  rcases h with h | h
  · subst h
    refine ⟨by decide, by decide, by decide, by decide, by decide, by decide, by decide, ?_⟩
    simp
  · simp only [isDigit, Bool.and_eq_true, decide_eq_true_eq] at h
    refine ⟨by simp [isWS]; omega, by omega, by omega, by omega, by omega, by omega,
      by omega, ?_⟩
    simp [isDigit]
    omega

theorem parseVal_cons (chk : Bool) (fuel : Nat) (b : Nat) (Y bs : List Nat)
    (hsk : skipWS bs = b :: Y) :
    parseVal chk (fuel + 1) bs =
      (if b = 110 then
        match Y with
        | 117 :: 108 :: 108 :: r => some (.jnull, r)
        | _ => none
      else if b = 116 then
        match Y with
        | 114 :: 117 :: 101 :: r => some (.jbool true, r)
        | _ => none
      else if b = 102 then
        match Y with
        | 97 :: 108 :: 115 :: 101 :: r => some (.jbool false, r)
        | _ => none
      else if b = 34 then
        match parseStr Y with
        | some (s, r) => some (.jstr s, r)
        | none => none
      else if b = 91 then
        match skipWS Y with
        | 93 :: r => some (.jarr [], r)
        | r2 =>
          match parseElems chk fuel r2 with
          | some (vs, r3) => some (.jarr vs, r3)
          | none => none
      else if b = 123 then
        match skipWS Y with
        | 125 :: r => some (.jobj [], r)
        | r2 =>
          match parseMembers chk fuel r2 with
          | some (ps, r3) => some (.jobj (mkObj ps), r3)
          | none => none
      else if b = 45 || isDigit b then
        match parseNum chk (b :: Y) with
        | some (mk, r) => some (.jnum mk.1 mk.2, r)
        | none => none
      else none) := by
  simp only [parseVal]
  rw [hsk]

set_option maxRecDepth 8000 in
theorem parse_print : ∀ (chk : Bool) fuel,
    (∀ v rest, canonJ v = true → sizeJ v ≤ fuel → numBoundary rest = true →
      parseVal chk fuel (printJval v ++ rest) = some (v, rest)) ∧
    (∀ vs rest, vs ≠ [] → canonElems vs = true → sizeElems vs ≤ fuel →
      parseElems chk fuel (printElems vs ++ 93 :: rest) = some (vs, rest)) ∧
    (∀ kvs rest, kvs ≠ [] → canonMembers kvs = true → sizeMembers kvs ≤ fuel →
      parseMembers chk fuel (printMembers kvs ++ 125 :: rest) = some (kvs, rest)) := by
  intro chk fuel
  induction fuel with
  | zero =>
    refine ⟨?_, ?_, ?_⟩
    · intro v rest _ hs _
      exact absurd hs (by have := sizeJ_pos v; omega)
    · intro vs rest _ _ hs
      exact absurd hs (by have := sizeElems_pos vs; omega)
    · intro kvs rest _ _ hs
      exact absurd hs (by have := sizeMembers_pos kvs; omega)
  | succ fuel ih =>
    obtain ⟨ihV, ihE, ihM⟩ := ih
    refine ⟨?_, ?_, ?_⟩
    · intro v rest hcanon hsize hb
      cases v with
      | jnull =>
        have hp : printJval Jval.jnull ++ rest = 110 :: 117 :: 108 :: 108 :: rest := by
          simp [printJval]
        rw [hp, parseVal_cons chk fuel 110 (117 :: 108 :: 108 :: rest) _
          (skipWS_cons _ _ (by decide))]
        simp
      | jbool bv =>
        cases bv with
        | true =>
          have hp : printJval (Jval.jbool true) ++ rest =
              116 :: 114 :: 117 :: 101 :: rest := by
            simp [printJval]
          rw [hp, parseVal_cons chk fuel 116 (114 :: 117 :: 101 :: rest) _
            (skipWS_cons _ _ (by decide))]
          simp
        | false =>
          have hp : printJval (Jval.jbool false) ++ rest =
              102 :: 97 :: 108 :: 115 :: 101 :: rest := by
            simp [printJval]
          rw [hp, parseVal_cons chk fuel 102 (97 :: 108 :: 115 :: 101 :: rest) _
            (skipWS_cons _ _ (by decide))]
          simp
      | jnum m k =>
        obtain ⟨b, t, hbt, hb45⟩ := printNum_head m k
        obtain ⟨hw, h110, h116, h102, h34, h91, h123, h45d⟩ := numHead_props b hb45
        simp only [canonJ, Bool.and_eq_true, Bool.or_eq_true, decide_eq_true_eq] at hcanon
        have hpn : parseNum chk (printNum m k ++ rest) = some ((m, k), rest) := by
          refine parseNum_print chk m k rest ?_ ?_ ?_ hb
          · tauto
          · intro h0
            rcases hcanon.1.2 with h | h
            · exact absurd h0 h
            · exact h
          · exact hcanon.2
        have hp : printJval (Jval.jnum m k) ++ rest = b :: (t ++ rest) := by
          simp [printJval, hbt]
        rw [hp, parseVal_cons chk fuel b (t ++ rest) _ (skipWS_cons _ _ hw),
          if_neg h110, if_neg h116, if_neg h102, if_neg h34, if_neg h91, if_neg h123,
          if_pos h45d]
        rw [show (b :: (t ++ rest) : List Nat) = printNum m k ++ rest by rw [hbt]; simp]
        rw [hpn]
      | jstr s =>
        have hp : printJval (Jval.jstr s) ++ rest = 34 :: (escStr s ++ 34 :: rest) := by
          simp [printJval]
        rw [hp, parseVal_cons chk fuel 34 (escStr s ++ 34 :: rest) _
          (skipWS_cons _ _ (by decide))]
        rw [if_neg (by decide), if_neg (by decide), if_neg (by decide), if_pos rfl]
        rw [parseStr_escStr s rest]
      | jarr xs =>
        cases xs with
        | nil =>
          have hp : printJval (Jval.jarr []) ++ rest = 91 :: 93 :: rest := by
            simp [printJval, printElems]
          rw [hp, parseVal_cons chk fuel 91 (93 :: rest) _ (skipWS_cons _ _ (by decide))]
          rw [if_neg (by decide), if_neg (by decide), if_neg (by decide),
            if_neg (by decide), if_pos rfl]
          rw [skipWS_cons 93 rest (by decide)]
        | cons v2 vs2 =>
          simp only [canonJ] at hcanon
          have hsz : sizeElems (v2 :: vs2) ≤ fuel := by
            simp only [sizeJ] at hsize
            omega
          obtain ⟨b2, t2, hbt2, hw2, h93b, -, -⟩ := printElems_head v2 vs2
          have hp : printJval (Jval.jarr (v2 :: vs2)) ++ rest =
              91 :: (printElems (v2 :: vs2) ++ 93 :: rest) := by
            simp [printJval]
          rw [hp, parseVal_cons chk fuel 91 (printElems (v2 :: vs2) ++ 93 :: rest) _
            (skipWS_cons _ _ (by decide))]
          rw [if_neg (by decide), if_neg (by decide), if_neg (by decide),
            if_neg (by decide), if_pos rfl]
          have hsw2 : skipWS (printElems (v2 :: vs2) ++ 93 :: rest) =
              printElems (v2 :: vs2) ++ 93 :: rest := by
            rw [hbt2, List.cons_append]
            exact skipWS_cons _ _ hw2
          rw [hsw2]
          split
          · rename_i r heq
            rw [hbt2, List.cons_append] at heq
            injection heq with h1 h2
            exact absurd h1 h93b
          · have he := ihE (v2 :: vs2) rest (by simp) hcanon hsz
            simp only [he]
      | jobj kvs =>
        cases kvs with
        | nil =>
          have hp : printJval (Jval.jobj []) ++ rest = 123 :: 125 :: rest := by
            simp [printJval, printMembers]
          rw [hp, parseVal_cons chk fuel 123 (125 :: rest) _ (skipWS_cons _ _ (by decide))]
          rw [if_neg (by decide), if_neg (by decide), if_neg (by decide),
            if_neg (by decide), if_neg (by decide), if_pos rfl]
          rw [skipWS_cons 125 rest (by decide)]
        | cons kv2 kvs2 =>
          simp only [canonJ, Bool.and_eq_true] at hcanon
          have hsz : sizeMembers (kv2 :: kvs2) ≤ fuel := by
            simp only [sizeJ] at hsize
            omega
          have hp : printJval (Jval.jobj (kv2 :: kvs2)) ++ rest =
              123 :: (printMembers (kv2 :: kvs2) ++ 125 :: rest) := by
            simp [printJval]
          rw [hp, parseVal_cons chk fuel 123 (printMembers (kv2 :: kvs2) ++ 125 :: rest) _
            (skipWS_cons _ _ (by decide))]
          rw [if_neg (by decide), if_neg (by decide), if_neg (by decide),
            if_neg (by decide), if_neg (by decide), if_pos rfl]
          have hpm : printMembers (kv2 :: kvs2) ++ 125 :: rest =
              34 :: ((printMembers (kv2 :: kvs2)).tail ++ 125 :: rest) := by
            cases kvs2 with
            | nil => rw [printMembers_single]; simp
            | cons kv3 kvs3 => rw [printMembers_cons2]; simp
          have hsw2 : skipWS (printMembers (kv2 :: kvs2) ++ 125 :: rest) =
              printMembers (kv2 :: kvs2) ++ 125 :: rest := by
            rw [hpm]
            exact skipWS_cons _ _ (by decide)
          rw [hsw2]
          split
          · rename_i r heq
            rw [hpm] at heq
            injection heq with h1 h2
            exact absurd h1 (by decide)
          · have hm := ihM (kv2 :: kvs2) rest (by simp) hcanon.1 hsz
            simp only [hm, mkObj_id_of_sorted (kv2 :: kvs2) hcanon.2]
    · intro vs rest hne hcanon hsize
      cases vs with
      | nil => exact absurd rfl hne
      | cons v vs2 =>
        simp only [canonElems, Bool.and_eq_true] at hcanon
        cases vs2 with
        | nil =>
          have hv := ihV v (93 :: rest) hcanon.1
            (by rw [sizeElems_single] at hsize; omega) (numBoundary93 rest)
          rw [printElems_single]
          simp only [parseElems, hv, skipWS_cons 93 rest (by decide)]
        | cons v2 vs3 =>
          have hv := ihV v (44 :: (printElems (v2 :: vs3) ++ 93 :: rest)) hcanon.1
            (by rw [sizeElems_cons2] at hsize; have := sizeElems_pos (v2 :: vs3); omega)
            (numBoundary44 _)
          have he := ihE (v2 :: vs3) rest (by simp) hcanon.2
            (by rw [sizeElems_cons2] at hsize; have := sizeJ_pos v; omega)
          rw [printElems_cons2]
          rw [show (printJval v ++ 44 :: printElems (v2 :: vs3)) ++ 93 :: rest =
            printJval v ++ (44 :: (printElems (v2 :: vs3) ++ 93 :: rest)) by simp]
          simp only [parseElems, hv, skipWS_cons 44 _ (by decide), he]
    · intro kvs rest hne hcanon hsize
      cases kvs with
      | nil => exact absurd rfl hne
      | cons kv kvs2 =>
        simp only [canonMembers, Bool.and_eq_true] at hcanon
        cases kvs2 with
        | nil =>
          have hv := ihV kv.2 (125 :: rest) hcanon.1
            (by rw [sizeMembers_single] at hsize; omega) (numBoundary125 rest)
          rw [printMembers_single]
          rw [show (34 :: (escStr kv.1 ++ 34 :: 58 :: printJval kv.2)) ++ 125 :: rest =
            34 :: (escStr kv.1 ++ 34 :: (58 :: (printJval kv.2 ++ 125 :: rest))) by simp]
          simp only [parseMembers, skipWS_cons 34 _ (by decide),
            parseStr_escStr kv.1 (58 :: (printJval kv.2 ++ 125 :: rest)),
            skipWS_cons 58 _ (by decide), hv, skipWS_cons 125 rest (by decide)]
        | cons kv2 kvs3 =>
          have hv := ihV kv.2 (44 :: (printMembers (kv2 :: kvs3) ++ 125 :: rest)) hcanon.1
            (by rw [sizeMembers_cons2] at hsize
                have := sizeMembers_pos (kv2 :: kvs3); omega)
            (numBoundary44 _)
          have hm := ihM (kv2 :: kvs3) rest (by simp) hcanon.2
            (by rw [sizeMembers_cons2] at hsize; have := sizeJ_pos kv.2; omega)
          rw [printMembers_cons2]
          rw [show ((34 :: (escStr kv.1 ++ 34 :: 58 :: printJval kv.2)) ++
              44 :: printMembers (kv2 :: kvs3)) ++ 125 :: rest =
            34 :: (escStr kv.1 ++ 34 :: (58 :: (printJval kv.2 ++
              (44 :: (printMembers (kv2 :: kvs3) ++ 125 :: rest))))) by simp]
          simp only [parseMembers, skipWS_cons 34 _ (by decide),
            parseStr_escStr kv.1 (58 :: (printJval kv.2 ++
              (44 :: (printMembers (kv2 :: kvs3) ++ 125 :: rest)))),
            skipWS_cons 58 _ (by decide), hv, skipWS_cons 44 _ (by decide), hm]

/-! ## Canonicalization: idempotence and key order -/

theorem canon_parseTop (bs : List Nat) (v : Jval) (h : parseTop bs = some v) :
    canonJ v = true := by
  unfold parseTop parseWhole at h
  cases hp : parseVal true (bs.length + 1) bs with
  | none => rw [hp] at h; cases h
  | some vr =>
    rw [hp] at h
    by_cases hw : skipWS vr.2 = []
    · have h2 : some vr.1 = some v := by
        rw [show (match some vr with
          | some (v, r) => if skipWS r = [] then some v else none
          | none => none) = if skipWS vr.2 = [] then some vr.1 else none from rfl] at h
        rw [if_pos hw] at h
        exact h
      cases h2
      exact (parse_canon (bs.length + 1)).1 bs vr.1 vr.2 (by rw [hp]) 
    · rw [show (match some vr with
        | some (v, r) => if skipWS r = [] then some v else none
        | none => none) = if skipWS vr.2 = [] then some vr.1 else none from rfl] at h
      rw [if_neg hw] at h
      cases h

theorem parseWhole_printJval (chk : Bool) (v : Jval) (hc : canonJ v = true) :
    parseWhole chk (printJval v) = some v := by
  have hrt := (parse_print chk ((printJval v).length + 1)).1 v [] hc
    (by have := sizeJ_le_printJval v; omega) rfl
  rw [List.append_nil] at hrt
  unfold parseWhole
  rw [hrt]
  rfl

/-- C6: canonicalization is idempotent — whenever the canonicalizer
accepts a byte sequence and produces output, running it on that output
succeeds and returns the output unchanged. -/
theorem c6_canonicalize_idempotent (bs out : List Nat)
    (h : canonicalizeJSON bs = .ok out) : canonicalizeJSON out = .ok out := by
  unfold canonicalizeJSON at h
  cases hs : parseTopSyn bs with
  | none => rw [hs] at h; cases h
  | some v0 =>
    rw [hs] at h
    cases v0 with
    | jobj kvs0 =>
      cases hp : parseTop bs with
      | none => rw [hp] at h; cases h
      | some v =>
        rw [hp] at h
        cases v with
        | jobj kvs =>
          have hcv : canonJ (Jval.jobj kvs) = true := canon_parseTop bs _ hp
          have hout : out = printJval (.jobj kvs) := by
            have h2 : (Except.ok (printJval (.jobj kvs)) : Except SegErr (List Nat)) =
                .ok out := h
            cases h2
            rfl
          subst hout
          have hptS : parseTopSyn (printJval (.jobj kvs)) = some (.jobj kvs) :=
            parseWhole_printJval false _ hcv
          have hptT : parseTop (printJval (.jobj kvs)) = some (.jobj kvs) :=
            parseWhole_printJval true _ hcv
          unfold canonicalizeJSON
          rw [hptS, hptT]
        | jnull => cases h
        | jbool bv => cases h
        | jnum m k => cases h
        | jstr s => cases h
        | jarr xs => cases h
    | jnull => cases h
    | jbool bv => cases h
    | jnum m k => cases h
    | jstr s => cases h
    | jarr xs => cases h

/-- Small-step evaluations of the serializer on the witness objects. -/
theorem printJval_num_eval (n : Nat) (d : Nat) (hn : n < 10) (hd : d = 48 + n) :
    printJval (.jnum (n : Int) 0) = [d] := by
  have e1 : natDigits n = [48 + n] := by
    unfold natDigits
    by_cases h0 : n = 0
    · simp [h0]
    · rw [if_neg h0, digitsAux, dif_neg h0,
        show n / 10 = 0 by omega, show n % 10 = n by omega]
      simp [digitsAux]
  have e2 : printNum (n : Int) 0 = [48 + n] := by
    unfold printNum printNumCore
    rw [if_neg (by omega), if_pos rfl, Int.natAbs_ofNat, e1]
  simp [printJval, e2, hd]

set_option maxRecDepth 8000 in
/-- C6 (witness): canonical output of `{ "a" : 1 }` is a fixed point. -/
theorem c6_canonicalize_idempotent_witness :
    canonicalizeJSON [123, 34, 97, 34, 58, 49, 125] =
      .ok [123, 34, 97, 34, 58, 49, 125] := by
  have e3 : printJval (.jnum 1 0) = [49] := printJval_num_eval 1 49 (by omega) rfl
  have e4 : escStr [97] = [97] := by simp [escStr, escByte]
  have e5 : printMembers [([97], Jval.jnum 1 0)] = [34, 97, 34, 58, 49] := by
    rw [printMembers_single]
    simp [e4, e3]
  have e6 : printJval (.jobj [([97], Jval.jnum 1 0)]) = [123, 34, 97, 34, 58, 49, 125] := by
    simp [printJval, e5]
  have h1 : canonicalizeJSON [123, 32, 34, 97, 34, 32, 58, 32, 49, 32, 125] =
      .ok [123, 34, 97, 34, 58, 49, 125] := by
    unfold canonicalizeJSON
    rw [show parseTopSyn [123, 32, 34, 97, 34, 32, 58, 32, 49, 32, 125] =
      some (.jobj [([97], .jnum 1 0)]) from rfl]
    rw [show parseTop [123, 32, 34, 97, 34, 32, 58, 32, 49, 32, 125] =
      some (.jobj [([97], .jnum 1 0)]) from rfl]
    show Except.ok (printJval (.jobj [([97], Jval.jnum 1 0)])) =
      Except.ok [123, 34, 97, 34, 58, 49, 125]
    rw [e6]
  exact c6_canonicalize_idempotent _ _ h1

/-- C10: accepted input always canonicalizes through a parsed object that
is in canonical form — in particular its keys (and the keys of every nested
object, by `canonJ`) are strictly ascending in byte-lexicographic order —
and the output is the serialization of that canonical object. -/
theorem c10_canonical_key_order (bs out : List Nat)
    (h : canonicalizeJSON bs = .ok out) :
    ∃ kvs, parseTop bs = some (.jobj kvs) ∧ canonJ (.jobj kvs) = true ∧
      sortedKeys kvs = true ∧ out = printJval (.jobj kvs) := by
  unfold canonicalizeJSON at h
  cases hs : parseTopSyn bs with
  | none => rw [hs] at h; cases h
  | some v0 =>
    rw [hs] at h
    cases v0 with
    | jobj kvs0 =>
      cases hp : parseTop bs with
      | none => rw [hp] at h; cases h
      | some v =>
        rw [hp] at h
        cases v with
        | jobj kvs =>
          have hcv : canonJ (Jval.jobj kvs) = true := canon_parseTop bs _ hp
          have hout : out = printJval (.jobj kvs) := by
            have h2 : (Except.ok (printJval (.jobj kvs)) : Except SegErr (List Nat)) =
                .ok out := h
            cases h2
            rfl
          have hsk : sortedKeys kvs = true := by
            have h3 := hcv
            simp only [canonJ, Bool.and_eq_true] at h3
            exact h3.2
          exact ⟨kvs, rfl, hcv, hsk, hout⟩
        | jnull => cases h
        | jbool bv => cases h
        | jnum m k => cases h
        | jstr s => cases h
        | jarr xs => cases h
    | jnull => cases h
    | jbool bv => cases h
    | jnum m k => cases h
    | jstr s => cases h
    | jarr xs => cases h

set_option maxRecDepth 8000 in
/-- C10 (witness): `{"b":1,"a":2}` parses to an object with sorted keys
and serializes as `{"a":2,"b":1}`. -/
theorem c10_canonical_key_order_witness :
    ∃ kvs, parseTop [123, 34, 98, 34, 58, 49, 44, 34, 97, 34, 58, 50, 125] =
        some (.jobj kvs) ∧ canonJ (.jobj kvs) = true ∧ sortedKeys kvs = true ∧
      [123, 34, 97, 34, 58, 50, 44, 34, 98, 34, 58, 49, 125] = printJval (.jobj kvs) := by
  have e1 : printJval (.jnum 1 0) = [49] := printJval_num_eval 1 49 (by omega) rfl
  have e2 : printJval (.jnum 2 0) = [50] := printJval_num_eval 2 50 (by omega) rfl
  have e4a : escStr [97] = [97] := by simp [escStr, escByte]
  have e4b : escStr [98] = [98] := by simp [escStr, escByte]
  have e5 : printMembers [([97], Jval.jnum 2 0), ([98], Jval.jnum 1 0)] =
      [34, 97, 34, 58, 50, 44, 34, 98, 34, 58, 49] := by
    rw [printMembers_cons2, printMembers_single]
    simp [e4a, e4b, e1, e2]
  have e6 : printJval (.jobj [([97], Jval.jnum 2 0), ([98], Jval.jnum 1 0)]) =
      [123, 34, 97, 34, 58, 50, 44, 34, 98, 34, 58, 49, 125] := by
    simp [printJval, e5]
  refine c10_canonical_key_order _ _ ?_
  unfold canonicalizeJSON
  rw [show parseTopSyn [123, 34, 98, 34, 58, 49, 44, 34, 97, 34, 58, 50, 125] =
    some (.jobj [([97], .jnum 2 0), ([98], .jnum 1 0)]) from rfl]
  rw [show parseTop [123, 34, 98, 34, 58, 49, 44, 34, 97, 34, 58, 50, 125] =
    some (.jobj [([97], .jnum 2 0), ([98], .jnum 1 0)]) from rfl]
  show Except.ok (printJval (.jobj [([97], Jval.jnum 2 0), ([98], Jval.jnum 1 0)])) =
    Except.ok [123, 34, 97, 34, 58, 50, 44, 34, 98, 34, 58, 49, 125]
  rw [e6]

end Jut
